import Mathlib

/-!
Verification of the figma-code-editor-widget editor-side pipeline.

The development shallowly embeds the TypeScript sources:
  * `src/declaration/types.d.ts` — the `Token`, `Style` and `Message` shapes;
  * `src/iframe/src/ui.ts` — the grid tokenizer, the highlight span applier,
    the run coalescer and the outgoing message builder (the body of the
    `EditorView.updateListener` callback inside `getExtensions`);
  * `src/widget/src/code.tsx` — `placeholderTokens`, `ensureFontWeight`,
    `getFill` and the message handler installed by `Widget`.

JavaScript strings are modelled as `List Char`; numbers that the code only
ever uses as non-negative counters are modelled as `Nat`; `parseInt` results
are modelled as `Option Int` (`none` = `NaN`); the float divisions inside
`getFill` are modelled exactly over `Rat`.  Fallible array writes
(`tokens[i].style = ...` on a missing index would throw in JS) are modelled
with `Option`.
-/

/-- `Style` from `types.d.ts`: `{ color: string; weight: string }`. -/
structure Style where
  color : String
  weight : String
deriving DecidableEq, Repr, Inhabited

/-- `Token` from `types.d.ts`: `{ i; x; y; text; style }`.  Both single
character cells and coalesced runs use this shape, exactly as in the source. -/
structure Token where
  i : Nat
  x : Nat
  y : Nat
  text : List Char
  style : Style
deriving DecidableEq, Repr, Inhabited

/-- `Message` from `types.d.ts`.  `language` is an `Option` because the
widget-side handler passes `msg.language` to `placeholderTokens`, whose
`language == null` test distinguishes a missing field. -/
structure Message where
  type : String
  width : Nat
  height : Nat
  text : List Char
  tokens : List Token
  language : Option String
deriving DecidableEq, Repr

/-- `DEFAULT_STYLE` from `ui.ts`: `{ color: "", weight: "" }`. -/
def DEFAULT_STYLE : Style := ⟨"", ""⟩

/-- The character loop of `ui.ts` (`getExtensions` update listener,
"Populate all the tokens with x/y positions"), with the running index `i`,
column `x`, row `y` and running max width as explicit accumulators.  The
per-cell style is a parameter because `ui.ts` uses `DEFAULT_STYLE` while
`code.tsx` duplicates the identical loop with the fixed placeholder style.
Returns (cells, final width, final row index). -/
def tokenizeGo (style : Style) : Nat → Nat → Nat → Nat → List Char → List Token × Nat × Nat
  | _, _, y, width, [] => ([], width, y)
  | i, x, y, width, c :: cs =>
    if c = '\n' then
      -- Line feed, advance newline: x = 0; y++
      let rest := tokenizeGo style (i + 1) 0 (y + 1) width cs
      (⟨i, x, y, [c], style⟩ :: rest.1, rest.2)
    else
      -- Advance character: x++; if (x > width) width = x
      let x1 := x + 1
      let width1 := if x1 > width then x1 else width
      let rest := tokenizeGo style (i + 1) x1 y width1 cs
      (⟨i, x, y, [c], style⟩ :: rest.1, rest.2)

/-- The grid tokenizer run from the initial state, as in `ui.ts`
(`let x = 0; let y = 0; let width = 0;` and `i` from 0). -/
def tokenize (style : Style) (docContents : List Char) : List Token × Nat × Nat :=
  tokenizeGo style 0 0 0 0 docContents

/-- The rows of a text, split on `'\n'` — the spec's notion of row used to
state the width formula ("max over rows of the number of non-newline
characters in that row"). -/
def rows : List Char → List (List Char)
  | [] => [[]]
  | c :: cs =>
    if c = '\n' then [] :: rows cs
    else
      match rows cs with
      | [] => [[c]]
      | r :: rs => (c :: r) :: rs

/-- Final column of each row when scanning from current column `x`
(auxiliary closed form for the tokenizer's width accumulator). -/
def rowLens (x : Nat) : List Char → List Nat
  | [] => [x]
  | c :: cs => if c = '\n' then x :: rowLens 0 cs else rowLens (x + 1) cs

/-- `tokens[k].style = st` for one index `k` (in-bounds by construction of
the caller; out-of-bounds is handled by `applyHighlightCount`). -/
def modifyStyle (st : Style) : List Token → Nat → List Token
  | [], _ => []
  | t :: ts, 0 => ⟨t.i, t.x, t.y, t.text, st⟩ :: ts
  | t :: ts, k + 1 => t :: modifyStyle st ts k

/-- The inner loop of the span applier in `ui.ts`
(`for (let i = highlight[0]; i < highlight[1]; i++) tokens[i].style = ...`),
with the remaining iteration count made explicit.  A write to a missing
index (`tokens[i]` undefined) would throw in JS; this is modelled by
returning `none`. -/
def applyHighlightCount (st : Style) : List Token → Nat → Nat → Option (List Token)
  | toks, _, 0 => some toks
  | toks, i, n + 1 =>
    if i < toks.length then applyHighlightCount st (modifyStyle st toks i) (i + 1) n
    else none

/-- One span `[lo, hi)` applied to the cells, as in `ui.ts`. -/
def applyHighlight (st : Style) (toks : List Token) (lo hi : Nat) : Option (List Token) :=
  applyHighlightCount st toks lo (hi - lo)

/-- The outer loop of the span applier in `ui.ts`
(`for (const highlight of highlighting) ...`).  `resolve` stands for the
memoized `getStyle` (a pure function of the class name within one session,
because results are cached on first computation). -/
def applyHighlights (resolve : String → Style) : List Token → List (Nat × Nat × String) → Option (List Token)
  | toks, [] => some toks
  | toks, (lo, hi, cls) :: rest =>
    match applyHighlight (resolve cls) toks lo hi with
    | none => none
    | some toks1 => applyHighlights resolve toks1 rest

/-- The mutable locals of the grouping loop in `ui.ts`
(`newTokens`, `prevToken`, `currentRun`). -/
structure CoState where
  newTokens : List Token
  prevToken : Option Token
  currentRun : List Token
deriving Repr

/-- `flushTokens` from `ui.ts`: emit the open run (if non-empty) with
`i/x/y/style` from its first cell and `text` the concatenation of the
member cells' texts. -/
def flushTokens (s : CoState) : CoState :=
  if s.currentRun.length > 0 then
    { newTokens := s.newTokens ++
        [⟨s.currentRun.headI.i, s.currentRun.headI.x, s.currentRun.headI.y,
          s.currentRun.foldl (fun acc t => acc ++ t.text) [], s.currentRun.headI.style⟩],
      prevToken := s.prevToken,
      currentRun := [] }
  else s

/-- One iteration of the grouping loop in `ui.ts` (`for (const token of
tokens)`): a newline always flushes; otherwise a style mismatch with the
previous token flushes, and the token joins the current run; `prevToken`
is always updated. -/
def coalesceStep (s : CoState) (token : Token) : CoState :=
  let s1 :=
    if token.text = ['\n'] then
      flushTokens s
    else
      let s2 :=
        match s.prevToken with
        | some prevToken =>
          if prevToken.style.color ≠ token.style.color ∨ prevToken.style.weight ≠ token.style.weight then
            flushTokens s
          else s
        | none => s
      { s2 with currentRun := s2.currentRun ++ [token] }
  { s1 with prevToken := some token }

/-- The grouping loop of `ui.ts` run from its initial state, with the final
flush; returns the final state. -/
def coalesceFromState (s : CoState) (toks : List Token) : CoState :=
  flushTokens (toks.foldl coalesceStep s)

/-- The run coalescer: the emitted `newTokens` of the grouping loop. -/
def coalesce (toks : List Token) : List Token :=
  (coalesceFromState ⟨[], none, []⟩ toks).newTokens

/-- The whole editing-side synthesis from `ui.ts` (tokenize, apply spans,
coalesce, assemble the `Message`), `none` when a span write is out of
bounds (where the JS callback would throw). -/
def buildMessage (resolve : String → Style) (languageName : String)
    (docContents : List Char) (highlighting : List (Nat × Nat × String)) : Option Message :=
  let r := tokenize DEFAULT_STYLE docContents
  match applyHighlights resolve r.1 highlighting with
  | none => none
  | some styled =>
    some ⟨"text", r.2.1, r.2.2 + 1, docContents, coalesce styled, some languageName⟩

/-- `PLACEHOLDER` from `code.tsx`: the fixed muted placeholder color. -/
def PLACEHOLDER : String := "rgb(128, 128, 128)"

/-- `PLACEHOLDER_TEXT` from `code.tsx`. -/
def PLACEHOLDER_TEXT : List Char := "Type code...".data

/-- The character loop of `placeholderTokens` in `code.tsx`, transcribed
separately from the `ui.ts` loop (the source duplicates it): every cell
gets the fixed style `{color: PLACEHOLDER, weight: "normal"}` and the cells
themselves are kept (no coalescing). -/
def placeholderTokensGo : Nat → Nat → Nat → Nat → List Char → List Token × Nat × Nat
  | _, _, y, width, [] => ([], width, y)
  | i, x, y, width, c :: cs =>
    if c = '\n' then
      let rest := placeholderTokensGo (i + 1) 0 (y + 1) width cs
      (⟨i, x, y, [c], ⟨PLACEHOLDER, "normal"⟩⟩ :: rest.1, rest.2)
    else
      let x1 := x + 1
      let width1 := if x1 > width then x1 else width
      let rest := placeholderTokensGo (i + 1) x1 y width1 cs
      (⟨i, x, y, [c], ⟨PLACEHOLDER, "normal"⟩⟩ :: rest.1, rest.2)

/-- `placeholderTokens` from `code.tsx`: the canonical placeholder
snapshot, defaulting the language to `"JavaScript"` when absent. -/
def placeholderTokens (placeholderText : List Char) (language : Option String) : Message :=
  let r := placeholderTokensGo 0 0 0 0 placeholderText
  ⟨"text", r.2.1, r.2.2 + 1, placeholderText,
    r.1, some (match language with | none => "JavaScript" | some l => l)⟩

/-- The message handler installed by `Widget` in `code.tsx`
(`figma.ui.onmessage`): on a `"text"` message, empty text is replaced by
the placeholder snapshot, otherwise the message is stored verbatim; other
message types leave the synced state unchanged. -/
def applyMessage (state : Message) (msg : Message) : Message :=
  if msg.type = "text" then
    if msg.text = [] then placeholderTokens PLACEHOLDER_TEXT msg.language
    else msg
  else state

/-- The whitespace set used to model JS `String.prototype.trim` and the
leading-whitespace skipping of `parseInt` (ASCII whitespace; the inputs in
scope are CSS weight strings). -/
def jsWhitespace (c : Char) : Bool :=
  c = ' ' || c = '\t' || c = '\n' || c = '\r' || c = '\x0b' || c = '\x0c'

/-- JS `String.prototype.trim` (both ends). -/
def jsTrim (s : List Char) : List Char :=
  ((s.dropWhile jsWhitespace).reverse.dropWhile jsWhitespace).reverse

def isDigitChar (c : Char) : Bool := '0' ≤ c && c ≤ '9'

def isHexDigitChar (c : Char) : Bool :=
  isDigitChar c || ('a' ≤ c && c ≤ 'f') || ('A' ≤ c && c ≤ 'F')

def hexVal (c : Char) : Nat :=
  if isDigitChar c then c.toNat - '0'.toNat
  else if 'a' ≤ c ∧ c ≤ 'f' then c.toNat - 'a'.toNat + 10
  else c.toNat - 'A'.toNat + 10

/-- Digit-string to number in the given base. -/
def digitsToNat (base : Nat) (ds : List Char) : Nat :=
  ds.foldl (fun acc c => acc * base + hexVal c) 0

/-- JS `parseInt(s)` (radix unspecified): skip leading whitespace, optional
sign, `0x`/`0X` switches to base 16, then the longest digit prefix;
`none` models `NaN`. -/
def jsParseInt (s : List Char) : Option Int :=
  let t := s.dropWhile jsWhitespace
  let sign : Int := match t with
    | '-' :: _ => -1
    | _ => 1
  let t1 : List Char := match t with
    | '-' :: r => r
    | '+' :: r => r
    | _ => t
  match t1 with
  | '0' :: c :: r =>
    if c = 'x' ∨ c = 'X' then
      let ds := r.takeWhile isHexDigitChar
      if ds = [] then none else some (sign * (digitsToNat 16 ds : Int))
    else
      let ds := t1.takeWhile isDigitChar
      if ds = [] then none else some (sign * (digitsToNat 10 ds : Int))
  | _ =>
    let ds := t1.takeWhile isDigitChar
    if ds = [] then none else some (sign * (digitsToNat 10 ds : Int))

/-- The return type of `ensureFontWeight` in `code.tsx`: a numeric weight
or a keyword. -/
inductive FontWeight where
  | num : Int → FontWeight
  | kw : String → FontWeight
deriving DecidableEq, Repr

/-- The keyword chain at the end of `ensureFontWeight` in `code.tsx`,
applied to `weight.toLowerCase().trim()`. -/
def keywordWeight (weight : List Char) : FontWeight :=
  let normalizedWeight := jsTrim (weight.map Char.toLower)
  if normalizedWeight = "thin".data then .kw "thin"
  else if normalizedWeight = "extra-light".data then .kw "extra-light"
  else if normalizedWeight = "light".data then .kw "light"
  else if normalizedWeight = "normal".data then .kw "normal"
  else if normalizedWeight = "medium".data then .kw "medium"
  else if normalizedWeight = "semi-bold".data then .kw "semi-bold"
  else if normalizedWeight = "bold".data then .kw "bold"
  else if normalizedWeight = "extra-bold".data then .kw "extra-bold"
  else if normalizedWeight = "black".data then .kw "black"
  else .kw "normal"

/-- `ensureFontWeight` from `code.tsx`.  `parseInt` yielding `NaN`
(modelled `none`) falls through to the keyword chain, because every
comparison with `NaN` is false in JS. -/
def ensureFontWeight (weight : List Char) : FontWeight :=
  if (jsTrim weight).length = 0 then .kw "normal"
  else
    match jsParseInt weight with
    | some weightInt =>
      if weightInt % 100 = 0 ∧ weightInt > 0 ∧ weightInt < 1000 then .num weightInt
      else keywordWeight weight
    | none => keywordWeight weight

/-- The `Color` interface of `code.tsx` as an (r, g, b, a) tuple.  Channels
are modelled as exact rationals (the source divides JS numbers by 255; for
the claims in scope only exact values are compared). -/
abbrev JColor : Type := Rat × Rat × Rat × Rat

/-- Scanner for the maximal runs of decimal digits of a string; `acc` holds
the digits of the run being read, in reverse. -/
def digitRunsGo : List Char → List Char → List (List Char)
  | acc, [] => if acc = [] then [] else [acc.reverse]
  | acc, c :: cs =>
    if isDigitChar c then digitRunsGo (c :: acc) cs
    else if acc = [] then digitRunsGo [] cs else acc.reverse :: digitRunsGo [] cs

/-- The maximal runs of decimal digits of a string — the composite
`style.split(/[^0-9]+/).filter(x => x.trim().length > 0)` from `getFill`
(splitting on runs of non-digits and dropping the empty pieces leaves
exactly the maximal digit runs, in order). -/
def digitRuns (s : List Char) : List (List Char) :=
  digitRunsGo [] s

/-- `getFill` from `code.tsx`: parse `"rgb(...)"`-like strings, dividing
the first three numbers by 255 and passing a fourth through unchanged as
alpha; anything else falls back to opaque black `(0, 0, 0, 1)`.  Nothing
in the body can throw (each digit run is a non-empty digit string, so the
`parseInt` on it always succeeds), so the `try/catch` of the source is not
reachable as an error path. -/
def getFill (style : List Char) : JColor :=
  let defaultColor : JColor := (0, 0, 0, 1)
  if ("rgb".data).isPrefixOf style then
    let numbers : List Nat := (digitRuns style).map (digitsToNat 10)
    if numbers.length ≥ 3 then
      ((numbers.getD 0 0 : Rat) / 255,
       (numbers.getD 1 0 : Rat) / 255,
       (numbers.getD 2 0 : Rat) / 255,
       if numbers.length ≥ 4 then (numbers.getD 3 0 : Rat) else 1)
    else defaultColor
  else defaultColor

/-! Definitions written from the claims' own words (used to compare the
code against the spec, never the other way round). -/

/-- Modelled from the claim (C1/C5 spec wording): one replayed run styles
the cells at its row, over `text.length` columns starting at its column. -/
def coversCell (r c : Token) : Prop :=
  c.y = r.y ∧ r.x ≤ c.x ∧ c.x < r.x + r.text.length

instance (r c : Token) : Decidable (coversCell r c) := by
  unfold coversCell; infer_instance

/-- Modelled from the claim (C1): apply one run to a fresh cell grid by
position. -/
def replayRun (cells : List Token) (r : Token) : List Token :=
  cells.map (fun c => if coversCell r c then ⟨c.i, c.x, c.y, c.text, r.style⟩ else c)

/-- Modelled from the claim (C1): re-apply all runs of a snapshot by
position. -/
def replay (cells : List Token) (runs : List Token) : List Token :=
  runs.foldl replayRun cells

/-- Reset the style of the newline cells to `DEFAULT_STYLE` (used to state
the corrected round-trip: replaying runs cannot restore a style that a
span gave to a newline cell). -/
def stripNlStyles (cells : List Token) : List Token :=
  cells.map (fun c => if c.text = ['\n'] then ⟨c.i, c.x, c.y, c.text, DEFAULT_STYLE⟩ else c)

/-- Modelled from the spec (C5, §4.6): the placeholder snapshot as the
spec describes it — the Grid Tokenizer with the fixed muted style on every
cell, followed by the Run Coalescer, with the language defaulted. -/
def placeholderPipeline (placeholderText : List Char) (language : Option String) : Message :=
  let r := tokenize ⟨PLACEHOLDER, "normal"⟩ placeholderText
  ⟨"text", r.2.1, r.2.2 + 1, placeholderText, coalesce r.1,
    some (language.getD "JavaScript")⟩

/-- The keyword set of claim C6. -/
def WEIGHT_KEYWORDS : List String :=
  ["thin", "extra-light", "light", "normal", "medium", "semi-bold", "bold", "extra-bold", "black"]

/-- Modelled from the claim (C6, as stated): empty/whitespace → "normal";
a multiple-of-100 integer string in [100, 900] → that integer; a keyword
of the fixed set → that keyword; anything else → "normal". -/
def claimFontWeight (w : List Char) : FontWeight :=
  if (jsTrim w).length = 0 then .kw "normal"
  else if w ≠ [] ∧ w.all isDigitChar ∧ (digitsToNat 10 w) % 100 = 0 ∧
          100 ≤ digitsToNat 10 w ∧ digitsToNat 10 w ≤ 900 then
    .num (digitsToNat 10 w)
  else if (String.mk w) ∈ WEIGHT_KEYWORDS then .kw (String.mk w)
  else .kw "normal"

/-- Modelled from the amended claim (C6): same cases, but the integer case
is decided by JS `parseInt` (a leading-prefix parse) landing in
{100, ..., 900}, and the keyword case by the lowercased, trimmed input. -/
def amendedFontWeight (w : List Char) : FontWeight :=
  if (jsTrim w).length = 0 then .kw "normal"
  else
    match jsParseInt w with
    | some n =>
      if n ∈ ((List.range 9).map (fun k => ((100 * (k + 1) : Nat) : Int))) then .num n
      else
        match WEIGHT_KEYWORDS.find? (fun k => jsTrim (w.map Char.toLower) = k.data) with
        | some k => .kw k
        | none => .kw "normal"
    | none =>
      match WEIGHT_KEYWORDS.find? (fun k => jsTrim (w.map Char.toLower) = k.data) with
      | some k => .kw k
      | none => .kw "normal"

/-! Grid discipline and reasoning helpers. -/

/-- The positional discipline of tokenizer output, starting at index `i`,
column `x`, row `y`: indices increase by one; a newline cell resets the
column and advances the row; any other cell is a single non-newline
character and advances the column.  Any restyling of tokenizer output
satisfies this. -/
def gridChainB : Nat → Nat → Nat → List Token → Bool
  | _, _, _, [] => true
  | i, x, y, t :: ts =>
    decide (t.i = i) && decide (t.x = x) && decide (t.y = y) &&
    (if t.text = ['\n'] then gridChainB (i + 1) 0 (y + 1) ts
     else decide (t.text.length = 1) && decide ('\n' ∉ t.text) && gridChainB (i + 1) (x + 1) y ts)

/-- The cells a run stands for: one reconstructed cell per character of its
text, at consecutive columns of its row, all with the run's style. -/
def runCells (r : Token) : List Token :=
  (List.range r.text.length).map (fun j => ⟨r.i + j, r.x + j, r.y, [r.text.getD j ' '], r.style⟩)

/-- The cells that are not newline cells (the cells the coalescer keeps). -/
def nonNewline (t : Token) : Bool := decide (t.text ≠ ['\n'])

/-- Adjacent-run condition of claim C4: two list-adjacent runs on the same
row must differ in style. -/
def rowStyleOk (a b : Token) : Prop := a.y = b.y → a.style ≠ b.style

instance (a b : Token) : Decidable (rowStyleOk a b) := by
  unfold rowStyleOk; infer_instance

/-- `currentRun` is a contiguous same-row, same-style block of single
non-newline characters. -/
def IsBlock (b : List Token) : Prop :=
  ∀ j (hj : j < b.length), ∃ ch, ch ≠ '\n' ∧
    b.get ⟨j, hj⟩ = ⟨b.headI.i + j, b.headI.x + j, b.headI.y, [ch], b.headI.style⟩

/-- Invariant of the grouping loop relating the state to the position
`(i, x, y)` of the next cell to be processed. -/
def StateInv (s : CoState) (i x y : Nat) : Prop :=
  (∀ r ∈ s.newTokens, r.text ≠ []) ∧ List.Chain' rowStyleOk s.newTokens ∧
  ((s.prevToken = none ∧ s.newTokens = [] ∧ s.currentRun = []) ∨
   (∃ p, s.prevToken = some p ∧ i = p.i + 1 ∧ (∀ r ∈ s.newTokens, r.y ≤ p.y) ∧
     ((p.text = ['\n'] ∧ s.currentRun = [] ∧ x = 0 ∧ y = p.y + 1) ∨
      (p.text ≠ ['\n'] ∧ x = p.x + 1 ∧ y = p.y ∧
       s.currentRun ≠ [] ∧ IsBlock s.currentRun ∧ s.currentRun.getLast? = some p ∧
       (∀ lr, s.newTokens.getLast? = some lr →
          lr.y = s.currentRun.headI.y → lr.style ≠ s.currentRun.headI.style)))))

/-- Concrete data for the round-trip claim (C1). -/
def docRt : List Char := "a\nb".data

def spansRt : List (Nat × Nat × String) := [(0, 3, "keyword")]

def resolveRed : String → Style := fun _ => ⟨"rgb(255, 0, 0)", "bold"⟩

def styledRt : List Token :=
  (applyHighlights resolveRed (tokenize DEFAULT_STYLE docRt).1 spansRt).getD []

/-- The message the pipeline produces on `docRt`/`spansRt` (used as concrete
witness data). -/
def msgRt : Message := ⟨"text", 1, 2, docRt, coalesce styledRt, some "JavaScript"⟩

/-- A span list that does not cover the newline of `docRt` (concrete data
for the amended round-trip claim). -/
def spansW : List (Nat × Nat × String) := [(0, 1, "kw")]

def styledW : List Token :=
  (applyHighlights resolveRed (tokenize DEFAULT_STYLE docRt).1 spansW).getD []

def msgW : Message := ⟨"text", 1, 2, docRt, coalesce styledW, some "JavaScript"⟩

/-- The shape of a cell: every field except the style (the span applier may
only change styles). -/
def cellShape (t : Token) : Nat × Nat × Nat × List Char := (t.i, t.x, t.y, t.text)

/-- The runs of `runs` covering the position of cell `c`, in order; the
last one wins during a replay. -/
def coveringRuns (runs : List Token) (c : Token) : List Token :=
  runs.filter (fun r => decide (coversCell r c))

/-- A concrete three-cell grid (`"a\nb"` with `"a"`/`"b"` styled) used as
witness data for the coalescer claims. -/
def gridC4 : List Token :=
  [⟨0, 0, 0, ['a'], ⟨"rgb(255, 0, 0)", "bold"⟩⟩,
   ⟨1, 1, 0, ['\n'], DEFAULT_STYLE⟩,
   ⟨2, 0, 1, ['b'], ⟨"rgb(255, 0, 0)", "bold"⟩⟩]

theorem rows_ne_nil (cs : List Char) : rows cs ≠ [] := by
  cases cs with
  | nil => simp [rows]
  | cons c cs =>
    simp only [rows]
    split
    · simp
    · split <;> simp

theorem tokenizeGo_y (style : Style) (cs : List Char) :
    ∀ i x y width, (tokenizeGo style i x y width cs).2.2 = y + cs.count '\n' := by
  induction cs with
  | nil => intro i x y width; simp [tokenizeGo]
  | cons c cs ih =>
    intro i x y width
    by_cases hc : c = '\n'
    · subst hc
      simp [tokenizeGo, ih, List.count_cons]
      omega
    · simp [tokenizeGo, hc, ih, List.count_cons]

theorem foldl_max_shift (L : List Nat) :
    ∀ a b : Nat, L.foldl max (max a b) = max a (L.foldl max b) := by
  induction L with
  | nil => intro a b; simp
  | cons n L ih =>
    intro a b
    simp only [List.foldl_cons]
    rw [max_assoc, ih]

theorem foldl_max_le_init (L : List Nat) : ∀ w : Nat, w ≤ L.foldl max w := by
  induction L with
  | nil => intro w; simp
  | cons n L ih =>
    intro w
    simp only [List.foldl_cons]
    exact le_trans (le_max_left w n) (ih _)

theorem le_foldl_max_rowLens (cs : List Char) :
    ∀ z, z ≤ (rowLens z cs).foldl max 0 := by
  induction cs with
  | nil => intro z; simp [rowLens]
  | cons c cs ih =>
    intro z
    by_cases hc : c = '\n'
    · subst hc
      simp only [rowLens, if_pos, List.foldl_cons]
      have h0 : max 0 z = z := by omega
      rw [h0]
      exact foldl_max_le_init _ _
    · simp only [rowLens, if_neg hc]
      exact le_trans (Nat.le_succ z) (ih (z + 1))

theorem tokenizeGo_width (style : Style) (cs : List Char) :
    ∀ i x y width, x ≤ width →
      (tokenizeGo style i x y width cs).2.1 = (rowLens x cs).foldl max width := by
  induction cs with
  | nil =>
    intro i x y width hxw
    simp only [tokenizeGo, rowLens, List.foldl_cons, List.foldl_nil]
    omega
  | cons c cs ih =>
    intro i x y width hxw
    by_cases hc : c = '\n'
    · subst hc
      simp only [tokenizeGo, rowLens, if_pos, List.foldl_cons]
      rw [ih _ _ _ _ (Nat.zero_le width)]
      have h0 : max width x = width := by omega
      rw [h0]
    · simp only [tokenizeGo, rowLens, if_neg hc]
      rw [ih _ _ _ _ (by split <;> omega)]
      have h1 : ∀ m : Nat, (rowLens (x + 1) cs).foldl max m = max m ((rowLens (x + 1) cs).foldl max 0) := by
        intro m
        have := foldl_max_shift (rowLens (x + 1) cs) m 0
        simpa using this
      rw [h1, h1 width]
      have h2 : x + 1 ≤ (rowLens (x + 1) cs).foldl max 0 := le_foldl_max_rowLens cs (x + 1)
      split <;> omega

theorem rowLens_eq_rows (cs : List Char) :
    ∀ x, rowLens x cs = ((x + ((rows cs).headI).length) :: ((rows cs).tail.map List.length)) := by
  induction cs with
  | nil => intro x; simp [rowLens, rows]
  | cons c cs ih =>
    intro x
    by_cases hc : c = '\n'
    · subst hc
      simp only [rowLens, if_pos rfl, rows]
      rw [ih 0]
      rcases h : rows cs with _ | ⟨r, rs⟩
      · exact absurd h (rows_ne_nil cs)
      · simp [h]
    · simp only [rowLens, if_neg hc, rows]
      rw [ih (x + 1)]
      rcases h : rows cs with _ | ⟨r, rs⟩
      · exact absurd h (rows_ne_nil cs)
      · simp [h, List.headI]
        omega

theorem tokenize_width_eq_rows (style : Style) (S : List Char) :
    (tokenize style S).2.1 = ((rows S).map List.length).foldl max 0 := by
  have h := tokenizeGo_width style S 0 0 0 0 (le_refl 0)
  rw [tokenize, h, rowLens_eq_rows S 0]
  rcases hr : rows S with _ | ⟨r, rs⟩
  · exact absurd hr (rows_ne_nil S)
  · simp [hr]

theorem tokenizeGo_length (style : Style) (cs : List Char) :
    ∀ i x y width, (tokenizeGo style i x y width cs).1.length = cs.length := by
  induction cs with
  | nil => intro i x y width; simp [tokenizeGo]
  | cons c cs ih =>
    intro i x y width
    by_cases hc : c = '\n' <;> simp [tokenizeGo, hc, ih]

theorem modifyStyle_length (st : Style) (l : List Token) :
    ∀ k, (modifyStyle st l k).length = l.length := by
  induction l with
  | nil => intro k; simp [modifyStyle]
  | cons t ts ih =>
    intro k
    cases k with
    | zero => simp [modifyStyle]
    | succ k => simp [modifyStyle, ih]

theorem applyHighlightCount_isSome (st : Style) :
    ∀ (n : Nat) (toks : List Token) (i : Nat), i + n ≤ toks.length →
      ∃ out, applyHighlightCount st toks i n = some out ∧ out.length = toks.length := by
  intro n
  induction n with
  | zero => intro toks i _; exact ⟨toks, rfl, rfl⟩
  | succ n ih =>
    intro toks i h
    have hi : i < toks.length := by omega
    have h2 : i + 1 + n ≤ (modifyStyle st toks i).length := by
      rw [modifyStyle_length]; omega
    obtain ⟨out, hout, hlen⟩ := ih (modifyStyle st toks i) (i + 1) h2
    refine ⟨out, ?_, ?_⟩
    · simp [applyHighlightCount, hi, hout]
    · rw [hlen, modifyStyle_length]

theorem applyHighlights_isSome (resolve : String → Style) :
    ∀ (spans : List (Nat × Nat × String)) (toks : List Token),
      (∀ sp ∈ spans, sp.1 ≤ sp.2.1 ∧ sp.2.1 ≤ toks.length) →
      ∃ out, applyHighlights resolve toks spans = some out ∧ out.length = toks.length := by
  intro spans
  induction spans with
  | nil => intro toks _; exact ⟨toks, rfl, rfl⟩
  | cons sp rest ih =>
    intro toks h
    obtain ⟨lo, hi, cls⟩ := sp
    have hb := h (lo, hi, cls) (List.mem_cons_self _ _)
    simp only at hb
    have hcount : lo + (hi - lo) ≤ toks.length := by omega
    obtain ⟨t1, ht1, hl1⟩ := applyHighlightCount_isSome (resolve cls) (hi - lo) toks lo hcount
    obtain ⟨out, hout, hlen⟩ := ih t1 (by
      intro sp hsp
      have := h sp (List.mem_cons_of_mem _ hsp)
      omega)
    refine ⟨out, ?_, by omega⟩
    simp [applyHighlights, applyHighlight, ht1, hout]

/-- C2 (Grid Tokenizer width/height): for every string the final row
index is the number of newlines (so `height = count + 1`), the width is
the maximum over rows of the number of non-newline characters in the row,
and the empty string yields zero cells, width 0 and final row index 0
(height 1). -/
theorem C2_tokenizer_width_height (style : Style) (S : List Char) :
    (tokenize style S).2.2 + 1 = S.count '\n' + 1 ∧
    (tokenize style S).2.1 = ((rows S).map List.length).foldl max 0 ∧
    tokenize style [] = ([], 0, 0) := by
  refine ⟨?_, tokenize_width_eq_rows style S, rfl⟩
  have h := tokenizeGo_y style S 0 0 0 0
  rw [tokenize, h]
  omega

/-- C3 (Sync Bridge apply semantics): a `"text"` message with empty
text is replaced by the canonical placeholder snapshot for its language
(default `"JavaScript"` when no language is present), any other `"text"`
message replaces the state verbatim, and neither result depends on the
prior state. -/
theorem C3_sync_bridge_apply (state msg : Message) (h : msg.type = "text") :
    (msg.text = [] →
       applyMessage state msg = placeholderTokens PLACEHOLDER_TEXT msg.language ∧
       (applyMessage state msg).language = some (msg.language.getD "JavaScript")) ∧
    (msg.text ≠ [] → applyMessage state msg = msg) ∧
    (placeholderTokens PLACEHOLDER_TEXT none).language = some "JavaScript" := by
  refine ⟨?_, ?_, rfl⟩
  · intro ht
    have he : applyMessage state msg = placeholderTokens PLACEHOLDER_TEXT msg.language := by
      simp [applyMessage, h, ht]
    refine ⟨he, ?_⟩
    rw [he]
    cases msg.language <;> rfl
  · intro ht
    simp [applyMessage, h, ht]

theorem C3_witness :
    applyMessage (placeholderTokens PLACEHOLDER_TEXT none) ⟨"text", 0, 1, [], [], some "Python"⟩ =
      placeholderTokens PLACEHOLDER_TEXT (some "Python") :=
  ((C3_sync_bridge_apply (placeholderTokens PLACEHOLDER_TEXT none)
      ⟨"text", 0, 1, [], [], some "Python"⟩ rfl).1 rfl).1

/-- C9 (span-applier bounds safety): when every highlight span
`(from, to, label)` satisfies `from ≤ to ≤ length of the document`, the
span-application loop only writes to existing cells, so the modelled
out-of-bounds failure (`none`) cannot occur. -/
theorem C9_span_applier_in_bounds (doc : List Char) (resolve : String → Style)
    (spans : List (Nat × Nat × String))
    (h : ∀ sp ∈ spans, sp.1 ≤ sp.2.1 ∧ sp.2.1 ≤ doc.length) :
    (applyHighlights resolve (tokenize DEFAULT_STYLE doc).1 spans).isSome = true := by
  have hlen : (tokenize DEFAULT_STYLE doc).1.length = doc.length :=
    tokenizeGo_length DEFAULT_STYLE doc 0 0 0 0
  obtain ⟨out, hout, _⟩ := applyHighlights_isSome resolve spans (tokenize DEFAULT_STYLE doc).1
    (by intro sp hsp; rw [hlen]; exact h sp hsp)
  rw [hout]
  rfl

theorem C9_witness :
    (applyHighlights resolveRed (tokenize DEFAULT_STYLE docRt).1 spansRt).isSome = true :=
  C9_span_applier_in_bounds docRt resolveRed spansRt (by decide)

/-- C7 (color-parse fallback): whenever the input does not start with
`"rgb"` or fewer than 3 numeric components are found, `getFill` returns
opaque black `(0, 0, 0, 1)`; the function is total, so no error ever
reaches the caller. -/
theorem C7_getFill_fallback (s : List Char)
    (h : ¬(("rgb".data).isPrefixOf s = true ∧ 3 ≤ (digitRuns s).length)) :
    getFill s = (0, 0, 0, 1) := by
  by_cases h1 : ("rgb".data).isPrefixOf s = true
  · have h2 : ¬ ((digitRuns s).map (digitsToNat 10)).length ≥ 3 := by
      rw [List.length_map]
      exact fun hl => h ⟨h1, hl⟩
    simp only [getFill]
    rw [if_pos h1, if_neg h2]
  · simp only [getFill]
    rw [if_neg h1]

theorem C7_witness : getFill "blue".data = (0, 0, 0, 1) :=
  C7_getFill_fallback "blue".data (by decide)

theorem getFill_four_numbers (s : List Char) (n0 n1 n2 n3 : Nat) (rest : List Nat)
    (hp : ("rgb".data).isPrefixOf s = true)
    (h : (digitRuns s).map (digitsToNat 10) = n0 :: n1 :: n2 :: n3 :: rest) :
    getFill s = ((n0 : Rat) / 255, (n1 : Rat) / 255, (n2 : Rat) / 255, (n3 : Rat)) := by
  simp only [getFill]
  rw [h, if_pos hp, if_pos (by simp), if_pos (by simp)]
  simp

/-- C10 (getFill channel scaling asymmetry): with an `"rgb"` prefix and
at least four parsed numbers, the first three channels are divided by 255
while the fourth is used verbatim as alpha; in particular a fractional
alpha `"0.5"` contributes the two digit runs `0` and `5`, so
`"rgb(255, 0, 0, 0.5)"` yields alpha 0. -/
theorem C10_getFill_alpha (s : List Char) (n0 n1 n2 n3 : Nat) (rest : List Nat)
    (hp : ("rgb".data).isPrefixOf s = true)
    (h : (digitRuns s).map (digitsToNat 10) = n0 :: n1 :: n2 :: n3 :: rest) :
    getFill s = ((n0 : Rat) / 255, (n1 : Rat) / 255, (n2 : Rat) / 255, (n3 : Rat)) ∧
    getFill "rgb(255, 0, 0, 0.5)".data = (1, 0, 0, 0) := by
  refine ⟨getFill_four_numbers s n0 n1 n2 n3 rest hp h, ?_⟩
  have h5 : getFill "rgb(255, 0, 0, 0.5)".data =
      ((255 : Rat) / 255, (0 : Rat) / 255, (0 : Rat) / 255, (0 : Rat)) :=
    getFill_four_numbers _ 255 0 0 0 [5] (by decide) (by decide)
  rw [h5]
  norm_num

theorem C10_witness :
    getFill "rgb(1, 2, 3, 4)".data = ((1 : Rat) / 255, (2 : Rat) / 255, (3 : Rat) / 255, (4 : Rat)) ∧
    getFill "rgb(255, 0, 0, 0.5)".data = (1, 0, 0, 0) :=
  C10_getFill_alpha "rgb(1, 2, 3, 4)".data 1 2 3 4 [] (by decide) (by decide)

theorem keywordWeight_eq_find (w : List Char) :
    keywordWeight w =
      match WEIGHT_KEYWORDS.find? (fun k => jsTrim (w.map Char.toLower) = k.data) with
      | some k => .kw k
      | none => .kw "normal" := by
  unfold keywordWeight WEIGHT_KEYWORDS
  by_cases h1 : jsTrim (w.map Char.toLower) = "thin".data
  · simp [List.find?, h1]
  by_cases h2 : jsTrim (w.map Char.toLower) = "extra-light".data
  · simp [List.find?, h1, h2]
  by_cases h3 : jsTrim (w.map Char.toLower) = "light".data
  · simp [List.find?, h1, h2, h3]
  by_cases h4 : jsTrim (w.map Char.toLower) = "normal".data
  · simp [List.find?, h1, h2, h3, h4]
  by_cases h5 : jsTrim (w.map Char.toLower) = "medium".data
  · simp [List.find?, h1, h2, h3, h4, h5]
  by_cases h6 : jsTrim (w.map Char.toLower) = "semi-bold".data
  · simp [List.find?, h1, h2, h3, h4, h5, h6]
  by_cases h7 : jsTrim (w.map Char.toLower) = "bold".data
  · simp [List.find?, h1, h2, h3, h4, h5, h6, h7]
  by_cases h8 : jsTrim (w.map Char.toLower) = "extra-bold".data
  · simp [List.find?, h1, h2, h3, h4, h5, h6, h7, h8]
  by_cases h9 : jsTrim (w.map Char.toLower) = "black".data
  · simp [List.find?, h1, h2, h3, h4, h5, h6, h7, h8, h9]
  simp [List.find?, h1, h2, h3, h4, h5, h6, h7, h8, h9]

theorem multiples_of_100 :
    ((List.range 9).map (fun k => ((100 * (k + 1) : Nat) : Int))) =
      [100, 200, 300, 400, 500, 600, 700, 800, 900] := by
  decide

/-- C6 counterexample: on the input `"100px"` — neither whitespace, nor
a multiple-of-100 integer string, nor a keyword — the code returns the
numeric weight 100 (JS `parseInt` accepts a numeric prefix), where the
claim as stated requires `"normal"`. -/
theorem C6_counterexample :
    ensureFontWeight "100px".data = .num 100 ∧
    claimFontWeight "100px".data = .kw "normal" ∧
    ensureFontWeight "100px".data ≠ claimFontWeight "100px".data := by
  decide

/-- C6 amended (weight normalization): `ensureFontWeight` returns
`"normal"` on empty/whitespace input; the integer `n` whenever the JS
`parseInt` leading-prefix parse of the input yields some
`n ∈ {100, 200, ..., 900}`; otherwise the matching keyword whenever the
lowercased, trimmed input is one of the fixed keyword set; and `"normal"`
in every remaining case. -/
theorem C6_weight_normalization (w : List Char) :
    ensureFontWeight w = amendedFontWeight w := by
  unfold ensureFontWeight amendedFontWeight
  by_cases h0 : (jsTrim w).length = 0
  · simp [h0]
  · rw [if_neg h0, if_neg h0]
    cases hp : jsParseInt w with
    | none => exact keywordWeight_eq_find w
    | some n =>
      dsimp only
      rw [multiples_of_100]
      by_cases hc : n % 100 = 0 ∧ n > 0 ∧ n < 1000
      · rw [if_pos hc, if_pos (by simp only [List.mem_cons, List.not_mem_nil, or_false]; omega)]
      · rw [if_neg hc, if_neg (by simp only [List.mem_cons, List.not_mem_nil, or_false]; omega)]
        exact keywordWeight_eq_find w

theorem getLast?_mem_self {α : Type} (l : List α) (a : α) (h : l.getLast? = some a) : a ∈ l := by
  have hx : a ∈ l.getLast? := by rw [h]; rfl
  obtain ⟨hne, rfl⟩ := List.mem_getLast?_eq_getLast hx
  exact List.getLast_mem hne

theorem flushTokens_empty (s : CoState) (h : s.currentRun = []) : flushTokens s = s := by
  simp [flushTokens, h]

theorem flushTokens_nonempty (s : CoState) (h : s.currentRun ≠ []) :
    flushTokens s =
      ⟨s.newTokens ++
        [⟨s.currentRun.headI.i, s.currentRun.headI.x, s.currentRun.headI.y,
          s.currentRun.foldl (fun acc t => acc ++ t.text) [], s.currentRun.headI.style⟩],
       s.prevToken, []⟩ := by
  have hl : s.currentRun.length > 0 := List.length_pos.mpr h
  simp [flushTokens, hl]

theorem coalesceStep_nl (s : CoState) (t : Token) (h : t.text = ['\n']) :
    coalesceStep s t = ⟨(flushTokens s).newTokens, some t, (flushTokens s).currentRun⟩ := by
  simp [coalesceStep, h]

theorem coalesceStep_first (s : CoState) (t : Token) (h : t.text ≠ ['\n'])
    (hp : s.prevToken = none) :
    coalesceStep s t = ⟨s.newTokens, some t, s.currentRun ++ [t]⟩ := by
  simp [coalesceStep, h, hp]

theorem coalesceStep_emptyrun (s : CoState) (t p : Token) (h : t.text ≠ ['\n'])
    (hp : s.prevToken = some p) (hr : s.currentRun = []) :
    coalesceStep s t = ⟨s.newTokens, some t, [t]⟩ := by
  have hf := flushTokens_empty s hr
  simp only [coalesceStep, if_neg h, hp]
  split <;> simp [hf, hr]

theorem coalesceStep_same (s : CoState) (t p : Token) (h : t.text ≠ ['\n'])
    (hp : s.prevToken = some p) (hs : p.style = t.style) :
    coalesceStep s t = ⟨s.newTokens, some t, s.currentRun ++ [t]⟩ := by
  have hc : ¬(p.style.color ≠ t.style.color ∨ p.style.weight ≠ t.style.weight) := by
    rw [hs]; simp
  simp only [coalesceStep, if_neg h, hp]
  rw [if_neg hc]

theorem coalesceStep_diff (s : CoState) (t p : Token) (h : t.text ≠ ['\n'])
    (hp : s.prevToken = some p) (hs : p.style ≠ t.style) :
    coalesceStep s t =
      ⟨(flushTokens s).newTokens, some t, (flushTokens s).currentRun ++ [t]⟩ := by
  have hc : p.style.color ≠ t.style.color ∨ p.style.weight ≠ t.style.weight := by
    by_contra hcon
    push_neg at hcon
    refine hs ?_
    have h1 := hcon.1
    have h2 := hcon.2
    cases hps : p.style with
    | mk c1 w1 =>
      cases hts : t.style with
      | mk c2 w2 =>
        rw [hps, hts] at h1 h2
        simp only at h1 h2
        rw [h1, h2]
  simp only [coalesceStep, if_neg h, hp]
  rw [if_pos hc]

theorem coalesceFromState_cons (s : CoState) (t : Token) (ts : List Token) :
    coalesceFromState s (t :: ts) = coalesceFromState (coalesceStep s t) ts := rfl

theorem isBlock_texts (b : List Token) (hb : IsBlock b) :
    ∀ t ∈ b, ∃ ch, ch ≠ '\n' ∧ t.text = [ch] := by
  intro t ht
  obtain ⟨⟨j, hj⟩, hget⟩ := List.mem_iff_get.mp ht
  obtain ⟨ch, hch, heq⟩ := hb j hj
  refine ⟨ch, hch, ?_⟩
  rw [← hget, heq]

theorem isBlock_singleton (t : Token) (ch : Char) (hch : ch ≠ '\n') (ht : t.text = [ch]) :
    IsBlock [t] := by
  intro j hj
  simp only [List.length_cons, List.length_nil] at hj
  have hj0 : j = 0 := by omega
  subst hj0
  refine ⟨ch, hch, ?_⟩
  obtain ⟨ti, tx, ty, tt, tstyle⟩ := t
  simp only at ht
  subst ht
  simp [List.headI]

theorem headI_append_singleton (b : List Token) (t : Token) (h : b ≠ []) :
    (b ++ [t]).headI = b.headI := by
  cases b with
  | nil => exact absurd rfl h
  | cons a l => simp [List.headI]

theorem isBlock_last_fields (b : List Token) (p : Token) (hb : IsBlock b)
    (hl : b.getLast? = some p) :
    p.y = b.headI.y ∧ p.style = b.headI.style ∧
    p.i = b.headI.i + (b.length - 1) ∧ p.x = b.headI.x + (b.length - 1) := by
  have hne : b ≠ [] := by
    intro hnil
    rw [hnil] at hl
    simp at hl
  have hlen : b.length - 1 < b.length := by
    have := List.length_pos.mpr hne
    omega
  have hply : b.getLast? = some (b.get ⟨b.length - 1, hlen⟩) := by
    rw [List.getLast?_eq_getLast _ hne, List.getLast_eq_getElem]
    rw [List.get_eq_getElem]
  rw [hply] at hl
  obtain ⟨ch, _, heq⟩ := hb (b.length - 1) hlen
  have hp : p = b.get ⟨b.length - 1, hlen⟩ := (Option.some_inj.mp hl).symm
  rw [hp, heq]
  simp

theorem isBlock_append (b : List Token) (p t : Token) (hb : IsBlock b)
    (hl : b.getLast? = some p)
    (hi : t.i = p.i + 1) (hx : t.x = p.x + 1) (hy : t.y = p.y) (hs : t.style = p.style)
    (ch : Char) (hch : ch ≠ '\n') (htext : t.text = [ch]) :
    IsBlock (b ++ [t]) := by
  have hne : b ≠ [] := by
    intro hnil
    rw [hnil] at hl
    simp at hl
  have hlenpos : 0 < b.length := List.length_pos.mpr hne
  obtain ⟨hpy, hps, hpi, hpx⟩ := isBlock_last_fields b p hb hl
  intro j hj
  rw [headI_append_singleton b t hne]
  simp only [List.length_append, List.length_cons, List.length_nil] at hj
  by_cases hjb : j < b.length
  · obtain ⟨c, hc, heq⟩ := hb j hjb
    refine ⟨c, hc, ?_⟩
    rw [List.get_eq_getElem]
    rw [List.getElem_append_left hjb]
    rw [← List.get_eq_getElem b ⟨j, hjb⟩, heq]
  · have hjeq : j = b.length := by omega
    refine ⟨ch, hch, ?_⟩
    subst hjeq
    have hgoal : (b ++ [t]).get ⟨b.length, by simp⟩ = t := by
      rw [List.get_eq_getElem, List.getElem_append_right (le_refl _)]
      simp
    rw [hgoal]
    have ht : t = ⟨p.i + 1, p.x + 1, p.y, [ch], p.style⟩ := by
      obtain ⟨ti, tx, ty, ttext, tstyle⟩ := t
      simp only at hi hx hy hs htext
      simp [hi, hx, hy, hs, htext]
    rw [ht]
    simp only [Token.mk.injEq]
    refine ⟨by omega, by omega, by rw [hpy], trivial, by rw [hps]⟩

theorem foldl_texts (b : List Token) :
    ∀ acc, b.foldl (fun acc t => acc ++ t.text) acc = acc ++ (b.map Token.text).flatten := by
  induction b with
  | nil => intro acc; simp
  | cons t ts ih => intro acc; simp [ih, List.append_assoc]

theorem flatten_singleton_texts (b : List Token)
    (h : ∀ t ∈ b, ∃ ch, ch ≠ '\n' ∧ t.text = [ch]) :
    (b.map Token.text).flatten = b.map (fun t => t.text.headI) := by
  induction b with
  | nil => simp
  | cons t ts ih =>
    obtain ⟨ch, _, hch⟩ := h t (List.mem_cons_self _ _)
    simp only [List.map_cons, List.flatten_cons, hch]
    rw [ih (fun u hu => h u (List.mem_cons_of_mem _ hu))]
    simp [hch, List.headI]

theorem runCells_flushRun (b : List Token) (hb : IsBlock b) (hne : b ≠ []) :
    runCells ⟨b.headI.i, b.headI.x, b.headI.y,
      b.foldl (fun acc t => acc ++ t.text) [], b.headI.style⟩ = b := by
  have htexts := isBlock_texts b hb
  have hfold : b.foldl (fun acc t => acc ++ t.text) [] = b.map (fun t => t.text.headI) := by
    rw [foldl_texts, List.nil_append, flatten_singleton_texts b htexts]
  unfold runCells
  simp only
  rw [hfold]
  apply List.ext_getElem
  · simp
  · intro j h1 h2
    have hjm : j < (b.map (fun t => t.text.headI)).length := by simpa using h2
    simp only [List.getElem_map, List.getElem_range]
    obtain ⟨ch, hch, heq⟩ := hb j h2
    have hbj : b[j] = (⟨b.headI.i + j, b.headI.x + j, b.headI.y, [ch], b.headI.style⟩ : Token) :=
      heq
    rw [List.getD_eq_getElem _ _ hjm, List.getElem_map, hbj]
    simp [List.headI]

theorem flushTokens_props (s : CoState) (hcrne : s.currentRun ≠ []) (hblock : IsBlock s.currentRun) :
    ∃ R, (flushTokens s).newTokens = s.newTokens ++ [R] ∧
      (flushTokens s).currentRun = [] ∧
      R.y = s.currentRun.headI.y ∧ R.style = s.currentRun.headI.style ∧
      R.text ≠ [] ∧ runCells R = s.currentRun := by
  refine ⟨⟨s.currentRun.headI.i, s.currentRun.headI.x, s.currentRun.headI.y,
      s.currentRun.foldl (fun acc t => acc ++ t.text) [], s.currentRun.headI.style⟩,
    by rw [flushTokens_nonempty s hcrne], by rw [flushTokens_nonempty s hcrne],
    rfl, rfl, ?_, runCells_flushRun s.currentRun hblock hcrne⟩
  have hfold : s.currentRun.foldl (fun acc t => acc ++ t.text) [] =
      s.currentRun.map (fun t => t.text.headI) := by
    rw [foldl_texts, List.nil_append, flatten_singleton_texts _ (isBlock_texts _ hblock)]
  simp only [hfold]
  simp [hcrne]

theorem chain'_append_run (nt : List Token) (R : Token)
    (hchain : List.Chain' rowStyleOk nt)
    (h : ∀ lr, nt.getLast? = some lr → lr.y = R.y → lr.style ≠ R.style) :
    List.Chain' rowStyleOk (nt ++ [R]) := by
  rw [List.chain'_append]
  refine ⟨hchain, List.chain'_singleton R, ?_⟩
  intro lr hlr u hu
  have hu2 : R = u := by simpa using hu
  subst hu2
  exact h lr (Option.mem_def.mp hlr)

theorem text_single (t : Token) (hlen : t.text.length = 1) (hnl : '\n' ∉ t.text) :
    ∃ ch, ch ≠ '\n' ∧ t.text = [ch] := by
  cases htext : t.text with
  | nil => rw [htext] at hlen; simp at hlen
  | cons c cs =>
    rw [htext] at hlen hnl
    simp only [List.length_cons, List.mem_cons, not_or] at hlen hnl
    have hcs : cs = [] := List.length_eq_zero.mp (by omega)
    subst hcs
    exact ⟨c, fun hc => hnl.1 hc.symm, rfl⟩

theorem gridChainB_cons (i x y : Nat) (t : Token) (ts : List Token) :
    gridChainB i x y (t :: ts) = true ↔
      t.i = i ∧ t.x = x ∧ t.y = y ∧
      ((t.text = ['\n'] ∧ gridChainB (i + 1) 0 (y + 1) ts = true) ∨
       (t.text ≠ ['\n'] ∧ t.text.length = 1 ∧ '\n' ∉ t.text ∧
        gridChainB (i + 1) (x + 1) y ts = true)) := by
  by_cases h : t.text = ['\n'] <;>
    simp [gridChainB, h, Bool.and_eq_true, decide_eq_true_eq] <;> tauto

theorem StateInv_init (i x y : Nat) : StateInv ⟨[], none, []⟩ i x y :=
  ⟨by simp, by simp, Or.inl ⟨rfl, rfl, rfl⟩⟩

theorem coalesce_main (ts : List Token) :
    ∀ (s : CoState) (i x y : Nat), gridChainB i x y ts = true → StateInv s i x y →
      ((coalesceFromState s ts).newTokens.flatMap runCells =
          s.newTokens.flatMap runCells ++ s.currentRun ++ ts.filter nonNewline) ∧
      (∀ r ∈ (coalesceFromState s ts).newTokens, r.text ≠ []) ∧
      List.Chain' rowStyleOk (coalesceFromState s ts).newTokens := by
  induction ts with
  | nil =>
    intro s i x y _ hinv
    obtain ⟨hne, hchain, hcase⟩ := hinv
    have hkey : s.currentRun = [] →
        ((coalesceFromState s []).newTokens.flatMap runCells =
          s.newTokens.flatMap runCells ++ s.currentRun ++ List.filter nonNewline []) ∧
        (∀ r ∈ (coalesceFromState s []).newTokens, r.text ≠ []) ∧
        List.Chain' rowStyleOk (coalesceFromState s []).newTokens := by
      intro h
      have hc : coalesceFromState s [] = s := flushTokens_empty s h
      rw [hc, h]
      exact ⟨by simp, hne, hchain⟩
    rcases hcase with ⟨hprev, hnt, hcr⟩ | ⟨p, hprev, hip, hbnd, hcase2⟩
    · exact hkey hcr
    · rcases hcase2 with ⟨hpt, hcr, hx, hy⟩ | ⟨hpt, hx, hy, hcrne, hblock, hlast, hcpl⟩
      · exact hkey hcr
      · obtain ⟨R, hRnt, hRcr, hRy, hRs, hRne, hRcells⟩ := flushTokens_props s hcrne hblock
        have hco : coalesceFromState s [] = flushTokens s := rfl
        rw [hco, hRnt]
        refine ⟨?_, ?_, ?_⟩
        · rw [List.flatMap_append]
          simp [hRcells]
        · intro r hr
          rcases List.mem_append.mp hr with h1 | h1
          · exact hne r h1
          · rw [List.mem_singleton.mp h1]; exact hRne
        · refine chain'_append_run _ _ hchain ?_
          intro lr hlr hy2
          rw [hRy] at hy2
          rw [hRs]
          exact hcpl lr hlr hy2
  | cons t ts ih =>
    intro s i x y hcb hinv
    rw [gridChainB_cons] at hcb
    obtain ⟨hti, htx, hty, hrest⟩ := hcb
    obtain ⟨hne, hchain, hcase⟩ := hinv
    rw [coalesceFromState_cons]
    have hfilter_nl : t.text = ['\n'] → (t :: ts).filter nonNewline = ts.filter nonNewline := by
      intro h
      simp [List.filter_cons, nonNewline, h]
    have hfilter_nn : t.text ≠ ['\n'] → (t :: ts).filter nonNewline = t :: ts.filter nonNewline := by
      intro h
      simp [List.filter_cons, nonNewline, h]
    rcases hrest with ⟨htnl, hcb'⟩ | ⟨htnn, htlen, htnomem, hcb'⟩
    · -- the cell is a newline: always flush, never join
      rw [coalesceStep_nl s t htnl]
      rcases hcase with ⟨hprev, hnt, hcr⟩ | ⟨p, hprev, hip, hbnd, hcase2⟩
      · have hf : flushTokens s = s := flushTokens_empty s hcr
        rw [hf]
        have hinv' : StateInv ⟨s.newTokens, some t, s.currentRun⟩ (i + 1) 0 (y + 1) := by
          refine ⟨hne, hchain, Or.inr ⟨t, rfl, by omega, ?_, Or.inl ⟨htnl, hcr, rfl, by omega⟩⟩⟩
          rw [hnt]
          intro r hr
          simp at hr
        obtain ⟨k1, k2, k3⟩ := ih ⟨s.newTokens, some t, s.currentRun⟩ (i + 1) 0 (y + 1) hcb' hinv'
        refine ⟨?_, k2, k3⟩
        rw [k1, hfilter_nl htnl]
      · rcases hcase2 with ⟨hpt, hcr, hx, hy⟩ | ⟨hpt, hx, hy, hcrne, hblock, hlast, hcpl⟩
        · have hf : flushTokens s = s := flushTokens_empty s hcr
          rw [hf]
          have hinv' : StateInv ⟨s.newTokens, some t, s.currentRun⟩ (i + 1) 0 (y + 1) := by
            refine ⟨hne, hchain, Or.inr ⟨t, rfl, by omega, ?_, Or.inl ⟨htnl, hcr, rfl, by omega⟩⟩⟩
            intro r hr
            have := hbnd r hr
            omega
          obtain ⟨k1, k2, k3⟩ := ih ⟨s.newTokens, some t, s.currentRun⟩ (i + 1) 0 (y + 1) hcb' hinv'
          refine ⟨?_, k2, k3⟩
          rw [k1, hfilter_nl htnl]
        · obtain ⟨R, hRnt, hRcr, hRy, hRs, hRne, hRcells⟩ := flushTokens_props s hcrne hblock
          obtain ⟨hpy, hps, hpi, hpx⟩ := isBlock_last_fields _ p hblock hlast
          rw [hRnt, hRcr]
          have hinv' : StateInv ⟨s.newTokens ++ [R], some t, []⟩ (i + 1) 0 (y + 1) := by
            refine ⟨?_, ?_, Or.inr ⟨t, rfl, by omega, ?_, Or.inl ⟨htnl, rfl, rfl, by omega⟩⟩⟩
            · intro r hr
              rcases List.mem_append.mp hr with h1 | h1
              · exact hne r h1
              · rw [List.mem_singleton.mp h1]; exact hRne
            · refine chain'_append_run _ _ hchain ?_
              intro lr hlr hy2
              rw [hRy] at hy2
              rw [hRs]
              exact hcpl lr hlr hy2
            · intro r hr
              rcases List.mem_append.mp hr with h1 | h1
              · have := hbnd r h1
                omega
              · rw [List.mem_singleton.mp h1, hRy, ← hpy]
                omega
          obtain ⟨k1, k2, k3⟩ := ih ⟨s.newTokens ++ [R], some t, []⟩ (i + 1) 0 (y + 1) hcb' hinv'
          refine ⟨?_, k2, k3⟩
          rw [k1, hfilter_nl htnl, List.flatMap_append]
          simp [hRcells, List.append_assoc]
    · -- an ordinary character cell
      obtain ⟨ch, hchnl, htext⟩ := text_single t htlen htnomem
      rcases hcase with ⟨hprev, hnt, hcr⟩ | ⟨p, hprev, hip, hbnd, hcase2⟩
      · rw [coalesceStep_first s t htnn hprev]
        have hinv' : StateInv ⟨s.newTokens, some t, s.currentRun ++ [t]⟩ (i + 1) (x + 1) y := by
          refine ⟨hne, hchain, Or.inr ⟨t, rfl, by omega, ?_,
            Or.inr ⟨htnn, by omega, by omega, by simp, ?_, ?_, ?_⟩⟩⟩
          · rw [hnt]
            intro r hr
            simp at hr
          · rw [hcr]
            simpa using isBlock_singleton t ch hchnl htext
          · rw [hcr]
            simp
          · rw [hnt]
            intro lr hlr
            simp at hlr
        obtain ⟨k1, k2, k3⟩ := ih ⟨s.newTokens, some t, s.currentRun ++ [t]⟩ (i + 1) (x + 1) y hcb' hinv'
        refine ⟨?_, k2, k3⟩
        rw [k1, hfilter_nn htnn]
        simp [hcr, List.append_assoc]
      · rcases hcase2 with ⟨hpt, hcr, hx, hy⟩ | ⟨hpt, hx, hy, hcrne, hblock, hlast, hcpl⟩
        · rw [coalesceStep_emptyrun s t p htnn hprev hcr]
          have hinv' : StateInv ⟨s.newTokens, some t, [t]⟩ (i + 1) (x + 1) y := by
            refine ⟨hne, hchain, Or.inr ⟨t, rfl, by omega, ?_,
              Or.inr ⟨htnn, by omega, by omega, by simp, ?_, ?_, ?_⟩⟩⟩
            · intro r hr
              have := hbnd r hr
              omega
            · simpa using isBlock_singleton t ch hchnl htext
            · simp
            · intro lr hlr hy2
              exfalso
              have hmem := getLast?_mem_self _ _ hlr
              have := hbnd lr hmem
              simp [List.headI] at hy2
              omega
          obtain ⟨k1, k2, k3⟩ := ih ⟨s.newTokens, some t, [t]⟩ (i + 1) (x + 1) y hcb' hinv'
          refine ⟨?_, k2, k3⟩
          rw [k1, hfilter_nn htnn]
          simp [hcr, List.append_assoc]
        · by_cases hstyle : p.style = t.style
          · rw [coalesceStep_same s t p htnn hprev hstyle]
            have hinv' : StateInv ⟨s.newTokens, some t, s.currentRun ++ [t]⟩ (i + 1) (x + 1) y := by
              refine ⟨hne, hchain, Or.inr ⟨t, rfl, by omega, ?_,
                Or.inr ⟨htnn, by omega, by omega, by simp, ?_, ?_, ?_⟩⟩⟩
              · intro r hr
                have := hbnd r hr
                omega
              · exact isBlock_append _ p t hblock hlast (by omega) (by omega) (by omega)
                  hstyle.symm ch hchnl htext
              · rw [List.getLast?_concat]
              · rw [headI_append_singleton _ _ hcrne]
                exact hcpl
            obtain ⟨k1, k2, k3⟩ := ih ⟨s.newTokens, some t, s.currentRun ++ [t]⟩ (i + 1) (x + 1) y hcb' hinv'
            refine ⟨?_, k2, k3⟩
            rw [k1, hfilter_nn htnn]
            simp [List.append_assoc]
          · rw [coalesceStep_diff s t p htnn hprev hstyle]
            obtain ⟨R, hRnt, hRcr, hRy, hRs, hRne, hRcells⟩ := flushTokens_props s hcrne hblock
            obtain ⟨hpy, hps, hpi, hpx⟩ := isBlock_last_fields _ p hblock hlast
            rw [hRnt, hRcr]
            simp only [List.nil_append]
            have hinv' : StateInv ⟨s.newTokens ++ [R], some t, [t]⟩ (i + 1) (x + 1) y := by
              refine ⟨?_, ?_, Or.inr ⟨t, rfl, by omega, ?_,
                Or.inr ⟨htnn, by omega, by omega, by simp, ?_, ?_, ?_⟩⟩⟩
              · intro r hr
                rcases List.mem_append.mp hr with h1 | h1
                · exact hne r h1
                · rw [List.mem_singleton.mp h1]; exact hRne
              · refine chain'_append_run _ _ hchain ?_
                intro lr hlr hy2
                rw [hRy] at hy2
                rw [hRs]
                exact hcpl lr hlr hy2
              · intro r hr
                rcases List.mem_append.mp hr with h1 | h1
                · have := hbnd r h1
                  omega
                · rw [List.mem_singleton.mp h1, hRy, ← hpy]
                  omega
              · simpa using isBlock_singleton t ch hchnl htext
              · simp
              · intro lr hlr hy2
                rw [List.getLast?_concat] at hlr
                have hlr2 : R = lr := Option.some_inj.mp hlr
                dsimp only [List.headI]
                rw [← hlr2, hRs, ← hps]
                exact hstyle
            obtain ⟨k1, k2, k3⟩ := ih ⟨s.newTokens ++ [R], some t, [t]⟩ (i + 1) (x + 1) y hcb' hinv'
            refine ⟨?_, k2, k3⟩
            rw [k1, hfilter_nn htnn, List.flatMap_append]
            simp [hRcells, List.append_assoc]

theorem coalesce_flatMap (L : List Token) (h : gridChainB 0 0 0 L = true) :
    (coalesce L).flatMap runCells = L.filter nonNewline := by
  have hm := (coalesce_main L ⟨[], none, []⟩ 0 0 0 h (StateInv_init 0 0 0)).1
  simpa using hm

theorem coalesce_text_ne_nil (L : List Token) (h : gridChainB 0 0 0 L = true) :
    ∀ r ∈ coalesce L, r.text ≠ [] :=
  (coalesce_main L ⟨[], none, []⟩ 0 0 0 h (StateInv_init 0 0 0)).2.1

theorem gridChainB_tokenizeGo (style : Style) (cs : List Char) :
    ∀ i x y w, gridChainB i x y (tokenizeGo style i x y w cs).1 = true := by
  induction cs with
  | nil => intro i x y w; simp [tokenizeGo, gridChainB]
  | cons c cs ih =>
    intro i x y w
    by_cases hc : c = '\n'
    · subst hc
      simp only [tokenizeGo, if_pos]
      rw [gridChainB_cons]
      exact ⟨rfl, rfl, rfl, Or.inl ⟨rfl, ih (i + 1) 0 (y + 1) w⟩⟩
    · simp only [tokenizeGo, if_neg hc]
      rw [gridChainB_cons]
      refine ⟨rfl, rfl, rfl, Or.inr ⟨?_, rfl, ?_, ih (i + 1) (x + 1) y _⟩⟩
      · simp [hc]
      · simp
        exact fun h => hc h.symm

theorem tokenizeGo_styles (style : Style) (cs : List Char) :
    ∀ i x y w t, t ∈ (tokenizeGo style i x y w cs).1 → t.style = style := by
  induction cs with
  | nil => intro i x y w t ht; simp [tokenizeGo] at ht
  | cons c cs ih =>
    intro i x y w t ht
    by_cases hc : c = '\n'
    · subst hc
      simp only [tokenizeGo, if_pos, List.mem_cons] at ht
      rcases ht with rfl | ht
      · rfl
      · exact ih _ _ _ _ _ ht
    · simp only [tokenizeGo, if_neg hc, List.mem_cons] at ht
      rcases ht with rfl | ht
      · rfl
      · exact ih _ _ _ _ _ ht

theorem tokenizeGo_texts (style : Style) (cs : List Char) :
    ∀ i x y w t, t ∈ (tokenizeGo style i x y w cs).1 → ∃ c ∈ cs, t.text = [c] := by
  induction cs with
  | nil => intro i x y w t ht; simp [tokenizeGo] at ht
  | cons c cs ih =>
    intro i x y w t ht
    by_cases hc : c = '\n'
    · subst hc
      simp only [tokenizeGo, if_pos, List.mem_cons] at ht
      rcases ht with rfl | ht
      · exact ⟨'\n', by simp⟩
      · obtain ⟨c0, hc0, he⟩ := ih _ _ _ _ _ ht
        exact ⟨c0, List.mem_cons_of_mem _ hc0, he⟩
    · simp only [tokenizeGo, if_neg hc, List.mem_cons] at ht
      rcases ht with rfl | ht
      · exact ⟨c, by simp⟩
      · obtain ⟨c0, hc0, he⟩ := ih _ _ _ _ _ ht
        exact ⟨c0, List.mem_cons_of_mem _ hc0, he⟩

theorem modifyStyle_shape (st : Style) (l : List Token) :
    ∀ k, (modifyStyle st l k).map cellShape = l.map cellShape := by
  induction l with
  | nil => intro k; simp [modifyStyle]
  | cons t ts ih =>
    intro k
    cases k with
    | zero => simp [modifyStyle, cellShape]
    | succ k => simp [modifyStyle, ih]

theorem applyHighlightCount_shape (st : Style) :
    ∀ (n : Nat) (toks out : List Token) (i : Nat),
      applyHighlightCount st toks i n = some out → out.map cellShape = toks.map cellShape := by
  intro n
  induction n with
  | zero =>
    intro toks out i h
    simp only [applyHighlightCount] at h
    rw [Option.some_inj.mp h]
  | succ n ih =>
    intro toks out i h
    simp only [applyHighlightCount] at h
    by_cases hi : i < toks.length
    · rw [if_pos hi] at h
      rw [ih _ _ _ h, modifyStyle_shape]
    · rw [if_neg hi] at h
      exact absurd h (by simp)

theorem applyHighlights_shape (resolve : String → Style) :
    ∀ (spans : List (Nat × Nat × String)) (toks out : List Token),
      applyHighlights resolve toks spans = some out → out.map cellShape = toks.map cellShape := by
  intro spans
  induction spans with
  | nil =>
    intro toks out h
    simp only [applyHighlights] at h
    rw [Option.some_inj.mp h]
  | cons sp rest ih =>
    intro toks out h
    obtain ⟨lo, hi, cls⟩ := sp
    simp only [applyHighlights] at h
    cases h1 : applyHighlight (resolve cls) toks lo hi with
    | none => rw [h1] at h; exact absurd h (by simp)
    | some toks1 =>
      rw [h1] at h
      rw [ih toks1 out h, applyHighlightCount_shape (resolve cls) (hi - lo) toks toks1 lo h1]

theorem gridChainB_shape (l1 : List Token) :
    ∀ (l2 : List Token) (i x y : Nat), l1.map cellShape = l2.map cellShape →
      gridChainB i x y l1 = gridChainB i x y l2 := by
  induction l1 with
  | nil =>
    intro l2 i x y h
    cases l2 with
    | nil => rfl
    | cons u us => simp at h
  | cons t ts ih =>
    intro l2 i x y h
    cases l2 with
    | nil => simp at h
    | cons u us =>
      simp only [List.map_cons, List.cons.injEq] at h
      obtain ⟨h1, h2⟩ := h
      have he : t.i = u.i ∧ t.x = u.x ∧ t.y = u.y ∧ t.text = u.text := by
        simpa [cellShape, Prod.ext_iff] using h1
      obtain ⟨e1, e2, e3, e4⟩ := he
      by_cases hnl : u.text = ['\n']
      · simp [gridChainB, e1, e2, e3, e4, hnl, ih us (i + 1) 0 (y + 1) h2]
      · simp [gridChainB, e1, e2, e3, e4, hnl, ih us (i + 1) (x + 1) y h2]

theorem gridChainB_lex (L : List Token) :
    ∀ (i x y : Nat), gridChainB i x y L = true → ∀ k (hk : k < L.length),
      y < L[k].y ∨ (L[k].y = y ∧ x ≤ L[k].x) := by
  induction L with
  | nil => intro i x y _ k hk; simp at hk
  | cons t ts ih =>
    intro i x y h k hk
    rw [gridChainB_cons] at h
    obtain ⟨hti, htx, hty, hrest⟩ := h
    cases k with
    | zero =>
      right
      simp only [List.getElem_cons_zero]
      omega
    | succ k =>
      have hk' : k < ts.length := by simpa using hk
      simp only [List.getElem_cons_succ]
      rcases hrest with ⟨hnl, hc⟩ | ⟨hnn, hlen, hmem, hc⟩
      · rcases ih (i + 1) 0 (y + 1) hc k hk' with h1 | ⟨h1, h2⟩
        · left; omega
        · left; omega
      · rcases ih (i + 1) (x + 1) y hc k hk' with h1 | ⟨h1, h2⟩
        · left; omega
        · right; omega

theorem gridChainB_strict (L : List Token) :
    ∀ (i x y : Nat), gridChainB i x y L = true →
      ∀ k1 k2 (h1 : k1 < L.length) (h2 : k2 < L.length), k1 < k2 →
      L[k1].y < L[k2].y ∨ (L[k1].y = L[k2].y ∧ L[k1].x < L[k2].x) := by
  induction L with
  | nil => intro i x y _ k1 k2 h1 h2 _; simp at h1
  | cons t ts ih =>
    intro i x y h k1 k2 h1 h2 hlt
    rw [gridChainB_cons] at h
    obtain ⟨hti, htx, hty, hrest⟩ := h
    cases k1 with
    | zero =>
      cases k2 with
      | zero => omega
      | succ k =>
        have hk' : k < ts.length := by simpa using h2
        simp only [List.getElem_cons_zero, List.getElem_cons_succ]
        rcases hrest with ⟨hnl, hc⟩ | ⟨hnn, hlen, hmem, hc⟩
        · rcases gridChainB_lex ts (i + 1) 0 (y + 1) hc k hk' with ha | ⟨ha, hb⟩
          · left; omega
          · left; omega
        · rcases gridChainB_lex ts (i + 1) (x + 1) y hc k hk' with ha | ⟨ha, hb⟩
          · left; omega
          · right; omega
    | succ k1 =>
      cases k2 with
      | zero => omega
      | succ k2 =>
        have hk1' : k1 < ts.length := by simpa using h1
        have hk2' : k2 < ts.length := by simpa using h2
        simp only [List.getElem_cons_succ]
        rcases hrest with ⟨hnl, hc⟩ | ⟨hnn, hlen, hmem, hc⟩
        · exact ih (i + 1) 0 (y + 1) hc k1 k2 hk1' hk2' (by omega)
        · exact ih (i + 1) (x + 1) y hc k1 k2 hk1' hk2' (by omega)

theorem gridChainB_coord_unique (L : List Token) (h : gridChainB 0 0 0 L = true) :
    ∀ k1 k2 (h1 : k1 < L.length) (h2 : k2 < L.length),
      L[k1].x = L[k2].x → L[k1].y = L[k2].y → k1 = k2 := by
  intro k1 k2 h1 h2 hx hy
  by_contra hne
  rcases Nat.lt_or_ge k1 k2 with hlt | hge
  · rcases gridChainB_strict L 0 0 0 h k1 k2 h1 h2 hlt with ha | ⟨ha, hb⟩ <;> omega
  · have hgt : k2 < k1 := by omega
    rcases gridChainB_strict L 0 0 0 h k2 k1 h2 h1 hgt with ha | ⟨ha, hb⟩ <;> omega

theorem gridChainB_members (L : List Token) :
    ∀ (i x y : Nat), gridChainB i x y L = true →
      ∀ t ∈ L, t.text = ['\n'] ∨ (t.text.length = 1 ∧ '\n' ∉ t.text) := by
  induction L with
  | nil => intro i x y _ t ht; simp at ht
  | cons u us ih =>
    intro i x y h t ht
    rw [gridChainB_cons] at h
    obtain ⟨_, _, _, hrest⟩ := h
    rcases List.mem_cons.mp ht with rfl | ht
    · rcases hrest with ⟨hnl, _⟩ | ⟨_, hlen, hmem, _⟩
      · exact Or.inl hnl
      · exact Or.inr ⟨hlen, hmem⟩
    · rcases hrest with ⟨_, hc⟩ | ⟨_, _, _, hc⟩
      · exact ih _ _ _ hc t ht
      · exact ih _ _ _ hc t ht

theorem replayRun_length (cells : List Token) (r : Token) :
    (replayRun cells r).length = cells.length := by
  simp [replayRun]

theorem replay_length (runs : List Token) :
    ∀ cells, (replay cells runs).length = cells.length := by
  induction runs with
  | nil => intro cells; rfl
  | cons r rs ih =>
    intro cells
    show (replay (replayRun cells r) rs).length = cells.length
    rw [ih, replayRun_length]

theorem replayRun_getElem (cells : List Token) (r : Token) (k : Nat) (hk : k < cells.length)
    (hk2 : k < (replayRun cells r).length) :
    (replayRun cells r)[k] =
      if coversCell r cells[k] then ⟨cells[k].i, cells[k].x, cells[k].y, cells[k].text, r.style⟩
      else cells[k] := by
  simp only [replayRun, List.getElem_map]

theorem coveringRuns_congr (runs : List Token) (c1 c2 : Token)
    (hx : c1.x = c2.x) (hy : c1.y = c2.y) :
    coveringRuns runs c1 = coveringRuns runs c2 := by
  unfold coveringRuns
  apply List.filter_congr
  intro r _
  simp only [decide_eq_decide]
  unfold coversCell
  rw [hx, hy]

theorem getLast?_cons_ne (a : Token) (l : List Token) (h : l ≠ []) :
    (a :: l).getLast? = l.getLast? := by
  cases l with
  | nil => exact absurd rfl h
  | cons b l' => rw [List.getLast?_cons_cons]

theorem replay_getElem (runs : List Token) :
    ∀ (cells : List Token) (k : Nat) (hk : k < cells.length),
      (replay cells runs)[k]? =
        some (match (coveringRuns runs cells[k]).getLast? with
          | some r => ⟨cells[k].i, cells[k].x, cells[k].y, cells[k].text, r.style⟩
          | none => cells[k]) := by
  induction runs with
  | nil =>
    intro cells k hk
    show cells[k]? = _
    rw [List.getElem?_eq_getElem hk]
    simp [coveringRuns]
  | cons r rs ih =>
    intro cells k hk
    show (replay (replayRun cells r) rs)[k]? = _
    have hk2 : k < (replayRun cells r).length := by rw [replayRun_length]; exact hk
    rw [ih (replayRun cells r) k hk2]
    have hcell := replayRun_getElem cells r k hk hk2
    by_cases hcov : coversCell r cells[k]
    · rw [if_pos hcov] at hcell
      have hcong : coveringRuns rs (replayRun cells r)[k] = coveringRuns rs cells[k] := by
        apply coveringRuns_congr <;> rw [hcell]
      have hcr : coveringRuns (r :: rs) cells[k] = r :: coveringRuns rs cells[k] := by
        simp [coveringRuns, List.filter_cons, hcov]
      rw [hcong, hcell, hcr]
      cases hnil : coveringRuns rs cells[k] with
      | nil => simp
      | cons q qs =>
        rw [getLast?_cons_ne r (q :: qs) (by simp)]
        cases hlast : (q :: qs).getLast? with
        | none => simp at hlast
        | some r0 => simp
    · rw [if_neg hcov] at hcell
      have hcong : coveringRuns rs (replayRun cells r)[k] = coveringRuns rs cells[k] := by
        apply coveringRuns_congr <;> rw [hcell]
      have hcr : coveringRuns (r :: rs) cells[k] = coveringRuns rs cells[k] := by
        simp [coveringRuns, List.filter_cons, hcov]
      rw [hcong, hcell, hcr]

theorem token_ext_shape (a b : Token) (hs : cellShape a = cellShape b)
    (hst : a.style = b.style) : a = b := by
  obtain ⟨a1, a2, a3, a4, a5⟩ := a
  obtain ⟨b1, b2, b3, b4, b5⟩ := b
  simp only [cellShape, Prod.mk.injEq] at hs
  simp only at hst
  obtain ⟨e1, e2, e3, e4⟩ := hs
  simp [e1, e2, e3, e4, hst]

theorem mem_runCells (r e : Token) :
    e ∈ runCells r ↔ ∃ j, j < r.text.length ∧
      e = ⟨r.i + j, r.x + j, r.y, [r.text.getD j ' '], r.style⟩ := by
  simp only [runCells, List.mem_map, List.mem_range]
  constructor
  · rintro ⟨j, hj, rfl⟩
    exact ⟨j, hj, rfl⟩
  · rintro ⟨j, hj, rfl⟩
    exact ⟨j, hj, rfl⟩

theorem covering_style (styled : List Token) (h : gridChainB 0 0 0 styled = true)
    (k : Nat) (hk : k < styled.length) (r : Token) (hr : r ∈ coalesce styled)
    (hcov : coversCell r styled[k]) :
    r.style = styled[k].style ∧ styled[k].text ≠ ['\n'] := by
  obtain ⟨hcy, hcx1, hcx2⟩ := hcov
  have hj : styled[k].x - r.x < r.text.length := by omega
  have he : (⟨r.i + (styled[k].x - r.x), r.x + (styled[k].x - r.x), r.y,
      [r.text.getD (styled[k].x - r.x) ' '], r.style⟩ : Token) ∈ runCells r :=
    (mem_runCells r _).mpr ⟨styled[k].x - r.x, hj, rfl⟩
  have hmem : (⟨r.i + (styled[k].x - r.x), r.x + (styled[k].x - r.x), r.y,
      [r.text.getD (styled[k].x - r.x) ' '], r.style⟩ : Token) ∈ styled.filter nonNewline := by
    rw [← coalesce_flatMap styled h]
    exact List.mem_flatMap.mpr ⟨r, hr, he⟩
  obtain ⟨hmem2, hnn⟩ := List.mem_filter.mp hmem
  obtain ⟨k2, hk2, hek2⟩ := List.mem_iff_getElem.mp hmem2
  have hxeq : styled[k2].x = styled[k].x := by rw [hek2]; simp; omega
  have hyeq : styled[k2].y = styled[k].y := by rw [hek2]; simp [hcy]
  have hkk := gridChainB_coord_unique styled h k2 k hk2 hk hxeq hyeq
  subst hkk
  constructor
  · rw [hek2]
  · intro hcon
    simp only [nonNewline, decide_eq_true_eq] at hnn
    apply hnn
    rw [hek2] at hcon
    exact hcon

theorem covering_exists (styled : List Token) (h : gridChainB 0 0 0 styled = true)
    (k : Nat) (hk : k < styled.length) (hnl : styled[k].text ≠ ['\n']) :
    ∃ r ∈ coalesce styled, coversCell r styled[k] := by
  have hmem : styled[k] ∈ styled.filter nonNewline :=
    List.mem_filter.mpr ⟨List.getElem_mem hk, by simp [nonNewline, hnl]⟩
  rw [← coalesce_flatMap styled h] at hmem
  obtain ⟨r, hr, hrc⟩ := List.mem_flatMap.mp hmem
  obtain ⟨j, hj, hje⟩ := (mem_runCells r _).mp hrc
  refine ⟨r, hr, ?_, ?_, ?_⟩
  · rw [hje]
  · rw [hje]; simp
  · rw [hje]; simp; omega

/-- C1 counterexample: on `"a\nb"` with one span covering all three
characters, the span applier styles the newline cell too, but the newline
never appears in any run, so replaying the snapshot's runs on a fresh grid
does not restore the newline cell's style: the replayed grid differs from
the grid the pipeline produced. -/
theorem C1_counterexample :
    applyHighlights resolveRed (tokenize DEFAULT_STYLE docRt).1 spansRt = some styledRt ∧
    (buildMessage resolveRed "JavaScript" docRt spansRt).map Message.tokens =
      some (coalesce styledRt) ∧
    replay (tokenize DEFAULT_STYLE docRt).1 (coalesce styledRt) ≠ styledRt := by
  refine ⟨by decide, by decide, ?_⟩
  decide

/-- C1 amended (round-trip): re-running the Grid Tokenizer on the
snapshot's `text` and replaying the snapshot's runs by position reproduces
the styled cell grid exactly on every non-newline cell (char and style),
and reproduces every newline cell up to its style, which replays as the
default style even when a span had styled it (newline cells never occur in
runs). -/
theorem C1_roundtrip_amended (resolve : String → Style) (lang : String) (doc : List Char)
    (spans : List (Nat × Nat × String)) (msg : Message) (styled : List Token)
    (hmsg : buildMessage resolve lang doc spans = some msg)
    (hstyled : applyHighlights resolve (tokenize DEFAULT_STYLE doc).1 spans = some styled) :
    replay (tokenize DEFAULT_STYLE msg.text).1 msg.tokens = stripNlStyles styled := by
  have hmsg2 : msg = ⟨"text", (tokenize DEFAULT_STYLE doc).2.1,
      (tokenize DEFAULT_STYLE doc).2.2 + 1, doc, coalesce styled, some lang⟩ := by
    simp only [buildMessage, hstyled] at hmsg
    exact (Option.some_inj.mp hmsg).symm
  subst hmsg2
  dsimp only
  have hchainBase : gridChainB 0 0 0 (tokenize DEFAULT_STYLE doc).1 = true :=
    gridChainB_tokenizeGo DEFAULT_STYLE doc 0 0 0 0
  have hshape : styled.map cellShape = (tokenize DEFAULT_STYLE doc).1.map cellShape :=
    applyHighlights_shape resolve spans (tokenize DEFAULT_STYLE doc).1 styled hstyled
  have hchainStyled : gridChainB 0 0 0 styled = true := by
    rw [gridChainB_shape styled (tokenize DEFAULT_STYLE doc).1 0 0 0 hshape]
    exact hchainBase
  have hlen : styled.length = (tokenize DEFAULT_STYLE doc).1.length := by
    have hc := congrArg List.length hshape
    simpa using hc
  apply List.ext_getElem?
  intro k
  by_cases hk : k < (tokenize DEFAULT_STYLE doc).1.length
  · have hks : k < styled.length := by omega
    rw [replay_getElem (coalesce styled) (tokenize DEFAULT_STYLE doc).1 k hk]
    have hstrip : (stripNlStyles styled)[k]? =
        some (if styled[k].text = ['\n']
          then ⟨styled[k].i, styled[k].x, styled[k].y, styled[k].text, DEFAULT_STYLE⟩
          else styled[k]) := by
      simp only [stripNlStyles, List.getElem?_map, List.getElem?_eq_getElem hks]
      rfl
    rw [hstrip]
    have hcs : cellShape styled[k] = cellShape (tokenize DEFAULT_STYLE doc).1[k] := by
      have hh := congrArg (fun l => l[k]?) hshape
      simp only [List.getElem?_map, List.getElem?_eq_getElem hks,
        List.getElem?_eq_getElem hk, Option.map_some'] at hh
      exact Option.some_inj.mp hh
    have he4 : styled[k].i = (tokenize DEFAULT_STYLE doc).1[k].i ∧
        styled[k].x = (tokenize DEFAULT_STYLE doc).1[k].x ∧
        styled[k].y = (tokenize DEFAULT_STYLE doc).1[k].y ∧
        styled[k].text = (tokenize DEFAULT_STYLE doc).1[k].text := by
      simpa [cellShape, Prod.ext_iff] using hcs
    obtain ⟨ei, ex, ey, etext⟩ := he4
    have hbst : (tokenize DEFAULT_STYLE doc).1[k].style = DEFAULT_STYLE :=
      tokenizeGo_styles DEFAULT_STYLE doc 0 0 0 0 _ (List.getElem_mem hk)
    by_cases hnl : styled[k].text = ['\n']
    · have hnone : coveringRuns (coalesce styled) (tokenize DEFAULT_STYLE doc).1[k] = [] := by
        apply List.filter_eq_nil_iff.mpr
        intro r hr
        simp only [decide_eq_true_eq]
        intro hcov
        have hcov2 : coversCell r styled[k] := by
          obtain ⟨c1, c2, c3⟩ := hcov
          exact ⟨by omega, by omega, by omega⟩
        exact (covering_style styled hchainStyled k hks r hr hcov2).2 hnl
      rw [hnone]
      simp only [if_pos hnl]
      refine congrArg some (token_ext_shape _ _ ?_ ?_)
      · simp [cellShape, ei, ex, ey, etext]
      · simpa using hbst
    · obtain ⟨r0, hr0, hcov0⟩ := covering_exists styled hchainStyled k hks hnl
      have hcov0b : coversCell r0 (tokenize DEFAULT_STYLE doc).1[k] := by
        obtain ⟨c1, c2, c3⟩ := hcov0
        exact ⟨by omega, by omega, by omega⟩
      have hne2 : coveringRuns (coalesce styled) (tokenize DEFAULT_STYLE doc).1[k] ≠ [] := by
        intro hnil
        have hin : r0 ∈ coveringRuns (coalesce styled) (tokenize DEFAULT_STYLE doc).1[k] :=
          List.mem_filter.mpr ⟨hr0, by simp [hcov0b]⟩
        rw [hnil] at hin
        simp at hin
      cases hlast : (coveringRuns (coalesce styled) (tokenize DEFAULT_STYLE doc).1[k]).getLast? with
      | none => exact absurd (List.getLast?_eq_none_iff.mp hlast) hne2
      | some rl =>
        have hrlin := getLast?_mem_self _ _ hlast
        have hrlmem : rl ∈ coalesce styled := (List.mem_filter.mp hrlin).1
        have hrlcov : coversCell rl (tokenize DEFAULT_STYLE doc).1[k] := by
          have hd := (List.mem_filter.mp hrlin).2
          simpa using hd
        have hrlcov2 : coversCell rl styled[k] := by
          obtain ⟨c1, c2, c3⟩ := hrlcov
          exact ⟨by omega, by omega, by omega⟩
        have hsty := (covering_style styled hchainStyled k hks rl hrlmem hrlcov2).1
        simp only [if_neg hnl]
        refine congrArg some (token_ext_shape _ _ ?_ ?_)
        · simp [cellShape, ei, ex, ey, etext]
        · simpa using hsty
  · have h1 : (replay (tokenize DEFAULT_STYLE doc).1 (coalesce styled))[k]? = none := by
      apply List.getElem?_eq_none
      rw [replay_length]
      omega
    have h2 : (stripNlStyles styled)[k]? = none := by
      apply List.getElem?_eq_none
      simp only [stripNlStyles, List.length_map]
      omega
    rw [h1, h2]

theorem C1_witness :
    buildMessage resolveRed "JavaScript" docRt spansW = some msgW ∧
    applyHighlights resolveRed (tokenize DEFAULT_STYLE docRt).1 spansW = some styledW ∧
    replay (tokenize DEFAULT_STYLE msgW.text).1 msgW.tokens = stripNlStyles styledW :=
  ⟨by decide, by decide,
    C1_roundtrip_amended resolveRed "JavaScript" docRt spansW msgW styledW
      (by decide) (by decide)⟩

/-- C4 (Coalescer minimality): for every cell sequence with the grid
discipline of the tokenizer (arbitrary styles), no two list-adjacent
emitted runs on the same row have structurally equal styles — every run
boundary within a row coincides with a style change. -/
theorem C4_coalescer_maximal (L : List Token) (h : gridChainB 0 0 0 L = true) :
    List.Chain' rowStyleOk (coalesce L) :=
  (coalesce_main L ⟨[], none, []⟩ 0 0 0 h (StateInv_init 0 0 0)).2.2

theorem C4_witness :
    gridChainB 0 0 0 gridC4 = true ∧ List.Chain' rowStyleOk (coalesce gridC4) :=
  ⟨by decide, C4_coalescer_maximal gridC4 (by decide)⟩

/-- C5 counterexample: on the constant placeholder string, the
placeholder synthesizer emits one run per character (twelve runs of the
same muted style), not the coalesced single run the spec's
tokenizer-plus-coalescer pipeline produces — so the two snapshots differ. -/
theorem C5_counterexample :
    placeholderTokens PLACEHOLDER_TEXT none ≠ placeholderPipeline PLACEHOLDER_TEXT none := by
  decide

theorem placeholderTokensGo_eq (cs : List Char) :
    ∀ i x y w, placeholderTokensGo i x y w cs = tokenizeGo ⟨PLACEHOLDER, "normal"⟩ i x y w cs := by
  induction cs with
  | nil => intro i x y w; rfl
  | cons c cs ih =>
    intro i x y w
    by_cases hc : c = '\n' <;> simp [placeholderTokensGo, tokenizeGo, hc, ih]

/-- C5 amended (placeholder pipeline correspondence): the placeholder
synthesizer runs the same Grid Tokenizer with the fixed muted style and
defaults the language, and its snapshot agrees with the spec's
tokenizer-plus-coalescer pipeline on every field except `tokens`: its
tokens are the raw tokenizer cells, one run per character and without
coalescing, and coalescing them yields exactly the pipeline's runs. -/
theorem C5_placeholder_amended (ptext : List Char) (lang : Option String) :
    (placeholderTokens ptext lang).type = (placeholderPipeline ptext lang).type ∧
    (placeholderTokens ptext lang).width = (placeholderPipeline ptext lang).width ∧
    (placeholderTokens ptext lang).height = (placeholderPipeline ptext lang).height ∧
    (placeholderTokens ptext lang).text = (placeholderPipeline ptext lang).text ∧
    (placeholderTokens ptext lang).language = (placeholderPipeline ptext lang).language ∧
    (placeholderTokens ptext lang).tokens = (tokenize ⟨PLACEHOLDER, "normal"⟩ ptext).1 ∧
    coalesce (placeholderTokens ptext lang).tokens = (placeholderPipeline ptext lang).tokens := by
  have hgo := placeholderTokensGo_eq ptext 0 0 0 0
  refine ⟨rfl, ?_, ?_, rfl, ?_, ?_, ?_⟩
  · simp [placeholderTokens, placeholderPipeline, tokenize, hgo]
  · simp [placeholderTokens, placeholderPipeline, tokenize, hgo]
  · cases lang <;> rfl
  · simp [placeholderTokens, tokenize, hgo]
  · simp [placeholderTokens, placeholderPipeline, tokenize, hgo]

theorem tokenizeGo_width_zero (style : Style) (cs : List Char) :
    ∀ i x y w, (tokenizeGo style i x y w cs).2.1 = 0 → w = 0 ∧ ∀ c ∈ cs, c = '\n' := by
  induction cs with
  | nil =>
    intro i x y w h
    simp only [tokenizeGo] at h
    exact ⟨h, by simp⟩
  | cons c cs ih =>
    intro i x y w h
    by_cases hc : c = '\n'
    · subst hc
      simp only [tokenizeGo, if_pos] at h
      obtain ⟨hw, hrest⟩ := ih _ _ _ _ h
      refine ⟨hw, ?_⟩
      intro c hcm
      rcases List.mem_cons.mp hcm with rfl | hm
      · rfl
      · exact hrest c hm
    · simp only [tokenizeGo, if_neg hc] at h
      obtain ⟨hw1, _⟩ := ih _ _ _ _ h
      exfalso
      by_cases hgt : x + 1 > w <;> simp [hgt] at hw1 <;> omega

theorem shape_getElem (l1 l2 : List Token) (hshape : l1.map cellShape = l2.map cellShape)
    (k : Nat) (hk1 : k < l1.length) (hk2 : k < l2.length) :
    cellShape l1[k] = cellShape l2[k] := by
  have hh := congrArg (fun l => l[k]?) hshape
  simp only [List.getElem?_map, List.getElem?_eq_getElem hk1,
    List.getElem?_eq_getElem hk2, Option.map_some'] at hh
  exact Option.some_inj.mp hh

/-- C8 (snapshot invariants by construction): every snapshot of the
edit pipeline has `width ≥ 0`, `height ≥ 1`, `width = 0 → runs = []`, and
each of its runs has non-empty newline-free text with index/row/col/style
equal to those of its first cell in the styled grid; the placeholder
snapshot (always built over the fixed placeholder text) satisfies the same
width/height invariants, and its runs are single newline-free characters. -/
theorem C8_snapshot_invariants (resolve : String → Style) (lang : String)
    (doc : List Char) (spans : List (Nat × Nat × String)) (msg : Message) (styled : List Token)
    (hmsg : buildMessage resolve lang doc spans = some msg)
    (hstyled : applyHighlights resolve (tokenize DEFAULT_STYLE doc).1 spans = some styled) :
    (0 ≤ msg.width ∧ 1 ≤ msg.height ∧ (msg.width = 0 → msg.tokens = []) ∧
      ∀ r ∈ msg.tokens, r.text ≠ [] ∧ '\n' ∉ r.text ∧
        (⟨r.i, r.x, r.y, r.text.take 1, r.style⟩ : Token) ∈ styled) ∧
    (∀ l : Option String,
      1 ≤ (placeholderTokens PLACEHOLDER_TEXT l).height ∧
      ((placeholderTokens PLACEHOLDER_TEXT l).width = 0 →
        (placeholderTokens PLACEHOLDER_TEXT l).tokens = []) ∧
      ∀ r ∈ (placeholderTokens PLACEHOLDER_TEXT l).tokens,
        r.text.length = 1 ∧ '\n' ∉ r.text) := by
  have hmsg2 : msg = ⟨"text", (tokenize DEFAULT_STYLE doc).2.1,
      (tokenize DEFAULT_STYLE doc).2.2 + 1, doc, coalesce styled, some lang⟩ := by
    simp only [buildMessage, hstyled] at hmsg
    exact (Option.some_inj.mp hmsg).symm
  subst hmsg2
  dsimp only
  have hshape : styled.map cellShape = (tokenize DEFAULT_STYLE doc).1.map cellShape :=
    applyHighlights_shape resolve spans (tokenize DEFAULT_STYLE doc).1 styled hstyled
  have hchainStyled : gridChainB 0 0 0 styled = true := by
    rw [gridChainB_shape styled (tokenize DEFAULT_STYLE doc).1 0 0 0 hshape]
    exact gridChainB_tokenizeGo DEFAULT_STYLE doc 0 0 0 0
  have hlen : styled.length = (tokenize DEFAULT_STYLE doc).1.length := by
    have hc := congrArg List.length hshape
    simpa using hc
  refine ⟨⟨Nat.zero_le _, by omega, ?_, ?_⟩, ?_⟩
  · intro hw0
    have hall := (tokenizeGo_width_zero DEFAULT_STYLE doc 0 0 0 0 hw0).2
    have hfilter : styled.filter nonNewline = [] := by
      apply List.filter_eq_nil_iff.mpr
      intro e hememb
      obtain ⟨k, hk, hek⟩ := List.mem_iff_getElem.mp hememb
      have hk2 : k < (tokenize DEFAULT_STYLE doc).1.length := by omega
      have hcs := shape_getElem styled (tokenize DEFAULT_STYLE doc).1 hshape k hk hk2
      have h4 : styled[k].i = (tokenize DEFAULT_STYLE doc).1[k].i ∧
          styled[k].x = (tokenize DEFAULT_STYLE doc).1[k].x ∧
          styled[k].y = (tokenize DEFAULT_STYLE doc).1[k].y ∧
          styled[k].text = (tokenize DEFAULT_STYLE doc).1[k].text := by
        simpa [cellShape, Prod.ext_iff] using hcs
      have htext := h4.2.2.2
      obtain ⟨c, hcdoc, hct⟩ := tokenizeGo_texts DEFAULT_STYLE doc 0 0 0 0 _
        (List.getElem_mem hk2)
      have hcnl : c = '\n' := hall c hcdoc
      subst hcnl
      rw [← hek]
      simp [nonNewline, htext, hct]
    have hfm := coalesce_flatMap styled hchainStyled
    rw [hfilter] at hfm
    cases hrs : coalesce styled with
    | nil => rfl
    | cons r rs =>
      exfalso
      have hrne : r.text ≠ [] :=
        coalesce_text_ne_nil styled hchainStyled r (by rw [hrs]; exact List.mem_cons_self r rs)
      rw [hrs] at hfm
      simp only [List.flatMap_cons] at hfm
      have h0 : runCells r = [] := (List.append_eq_nil.mp hfm).1
      have hl0 : r.text.length = 0 := by simpa [runCells] using congrArg List.length h0
      exact hrne (List.length_eq_zero.mp hl0)
  · intro r hr
    refine ⟨coalesce_text_ne_nil styled hchainStyled r hr, ?_, ?_⟩
    · intro hmemnl
      obtain ⟨j, hj, hjt⟩ := List.mem_iff_getElem.mp hmemnl
      have he : (⟨r.i + j, r.x + j, r.y, [r.text.getD j ' '], r.style⟩ : Token) ∈ runCells r :=
        (mem_runCells r _).mpr ⟨j, hj, rfl⟩
      have hmem : (⟨r.i + j, r.x + j, r.y, [r.text.getD j ' '], r.style⟩ : Token) ∈
          styled.filter nonNewline := by
        rw [← coalesce_flatMap styled hchainStyled]
        exact List.mem_flatMap.mpr ⟨r, hr, he⟩
      have hnn := (List.mem_filter.mp hmem).2
      simp only [nonNewline, decide_eq_true_eq] at hnn
      have hgd : r.text.getD j ' ' = '\n' := by rw [List.getD_eq_getElem _ _ hj, hjt]
      exact hnn (by rw [hgd])
    · have h0 : 0 < r.text.length :=
        List.length_pos.mpr (coalesce_text_ne_nil styled hchainStyled r hr)
      have he : (⟨r.i + 0, r.x + 0, r.y, [r.text.getD 0 ' '], r.style⟩ : Token) ∈ runCells r :=
        (mem_runCells r _).mpr ⟨0, h0, rfl⟩
      have hmem : (⟨r.i + 0, r.x + 0, r.y, [r.text.getD 0 ' '], r.style⟩ : Token) ∈
          styled.filter nonNewline := by
        rw [← coalesce_flatMap styled hchainStyled]
        exact List.mem_flatMap.mpr ⟨r, hr, he⟩
      have hsty := (List.mem_filter.mp hmem).1
      have heq : (⟨r.i + 0, r.x + 0, r.y, [r.text.getD 0 ' '], r.style⟩ : Token) =
          ⟨r.i, r.x, r.y, r.text.take 1, r.style⟩ := by
        cases ht : r.text with
        | nil => rw [ht] at h0; simp at h0
        | cons a l => simp [ht]
      rw [heq] at hsty
      exact hsty
  · intro l
    have ht : (placeholderTokens PLACEHOLDER_TEXT l).tokens =
        (placeholderTokens PLACEHOLDER_TEXT none).tokens := rfl
    have hh : (placeholderTokens PLACEHOLDER_TEXT l).height =
        (placeholderTokens PLACEHOLDER_TEXT none).height := rfl
    have hw : (placeholderTokens PLACEHOLDER_TEXT l).width =
        (placeholderTokens PLACEHOLDER_TEXT none).width := rfl
    refine ⟨?_, ?_, ?_⟩
    · rw [hh]; decide
    · rw [hw, ht]; decide
    · rw [ht]; decide

theorem C8_witness :
    buildMessage resolveRed "JavaScript" docRt spansRt = some msgRt ∧
    applyHighlights resolveRed (tokenize DEFAULT_STYLE docRt).1 spansRt = some styledRt ∧
    ((0 ≤ msgRt.width ∧ 1 ≤ msgRt.height ∧ (msgRt.width = 0 → msgRt.tokens = []) ∧
      ∀ r ∈ msgRt.tokens, r.text ≠ [] ∧ '\n' ∉ r.text ∧
        (⟨r.i, r.x, r.y, r.text.take 1, r.style⟩ : Token) ∈ styledRt) ∧
    (∀ l : Option String,
      1 ≤ (placeholderTokens PLACEHOLDER_TEXT l).height ∧
      ((placeholderTokens PLACEHOLDER_TEXT l).width = 0 →
        (placeholderTokens PLACEHOLDER_TEXT l).tokens = []) ∧
      ∀ r ∈ (placeholderTokens PLACEHOLDER_TEXT l).tokens,
        r.text.length = 1 ∧ '\n' ∉ r.text)) :=
  ⟨by decide, by decide,
    C8_snapshot_invariants resolveRed "JavaScript" docRt spansRt msgRt styledRt
      (by decide) (by decide)⟩
